import Mathlib

/-!
# Verification of the ClusterEnsembles library

A shallow embedding of `src/ClusterEnsembles/ClusterEnsembles.py` and proofs
about it.  Conventions of the embedding:

* A cluster label is `Option ℤ`: `none` models the float `NaN` missing-value
  sentinel, `some v` a concrete label.  Float equality on labels (where `NaN`
  never equals anything, itself included) is `labelEq`.
* A numpy 2-D array is a `List (List _)` of rows.  `np.dot`, `np.hstack`,
  `np.vstack`, transposition and elementwise operations are modelled by the
  matrix helpers below.
* The external collaborators (the pymetis partitioner `pymetis.part_graph`,
  the random source `np.random`, and the real square root used inside the
  NMF iteration) are taken as explicit function parameters; theorems that
  need a property of them (e.g. that the partitioner returns one value in
  `[0, nparts)` per node) take it as a hypothesis.
* Python functions that would raise are modelled with `Option`/`Except`.
-/

namespace ClusterEnsembles

/-- A base-clustering entry: `none` is the `NaN` missing sentinel. -/
abbrev Label := Option ℤ

/-- Float equality on label entries: `NaN` (here `none`) never equals
anything, not even another `NaN`. -/
def labelEq : Label → Label → Bool
  | some a, some b => a == b
  | _, _ => false

/-! ## Dense matrix helpers (numpy array operations) -/

/-- Number of columns of a row-major matrix, read off the first row
(matches `shape[1]` for a rectangular array). -/
def colsOf (m : List (List α)) : Nat := (m.headD []).length

/-- Column `j` of a row-major matrix, with default `d` for short rows. -/
def colD (m : List (List α)) (j : Nat) (d : α) : List α :=
  m.map (fun r => r.getD j d)

/-- Matrix transpose (`.T`), with default `d` for short rows. -/
def transposeD (d : α) (m : List (List α)) : List (List α) :=
  (List.range (colsOf m)).map (fun j => colD m j d)

/-- Inner product of two rows (`np.dot` on vectors). -/
def dotL [Add α] [Mul α] [Zero α] (u v : List α) : α :=
  ((u.zip v).map (fun p => p.1 * p.2)).sum

/-- Matrix product (`np.dot`): entry `(i, j)` is the inner product of row `i`
of `A` with column `j` of `B`. -/
def matMul [Add α] [Mul α] [Zero α] (A B : List (List α)) : List (List α) :=
  A.map (fun r => (List.range (colsOf B)).map (fun j => dotL r (colD B j 0)))

/-- Elementwise combination of two equally-shaped matrices. -/
def elemWise (f : α → β → γ) (A : List (List α)) (B : List (List β)) :
    List (List γ) :=
  List.zipWith (List.zipWith f) A B

/-- Elementwise map over a matrix. -/
def elemMap (f : α → β) (A : List (List α)) : List (List β) :=
  A.map (List.map f)

/-- Add a scalar to every entry (`X + eps` with numpy broadcasting). -/
def elemAddC [Add α] (c : α) (A : List (List α)) : List (List α) :=
  A.map (fun row => row.map (fun x => x + c))

/-- `np.zeros((r, c))`. -/
def zerosM [Zero α] (r c : Nat) : List (List α) :=
  List.replicate r (List.replicate c 0)

/-- `np.diag(v)`: square matrix with `v` on the diagonal. -/
def diagM [Zero α] (v : List α) : List (List α) :=
  (List.range v.length).map
    (fun i => (List.range v.length).map (fun j => if j = i then v.getD i 0 else 0))

/-- `m` is a rectangular `r × c` matrix. -/
def IsRect (m : List (List α)) (r c : Nat) : Prop :=
  m.length = r ∧ ∀ row ∈ m, row.length = c

/-! ## Connectivity matrix (`create_connectivity_matrix`) -/

/-- One row of the per-run co-membership indicator:
`np.where(elem_bc == bc, 1, 0)` for a fixed entry `x = elem_bc`. -/
def connRow (bc : List Label) (x : Label) : List ℚ :=
  bc.map (fun y => if labelEq x y then (1 : ℚ) else 0)

/-- The `N × N` 0/1 co-membership indicator of a single run. -/
def runMatrix (bc : List Label) : List (List ℚ) :=
  bc.map (connRow bc)

/-- `create_connectivity_matrix`: accumulate the per-run co-membership
indicators and divide by the number of runs. -/
def create_connectivity_matrix (bcs : List (List Label)) : List (List ℚ) :=
  let n := (bcs.headD []).length
  let M := bcs.foldl (fun M bc => elemWise (· + ·) M (runMatrix bc))
    (zerosM n n)
  M.map (fun row => row.map (fun x => x / (bcs.length : ℚ)))

/-! ## Hypergraph builder (`create_hypergraph`) -/

/-- `np.unique(bc[~np.isnan(bc)])`: the sorted list of distinct non-missing
labels of one run. -/
def uniqueLabels (bc : List Label) : List ℤ :=
  List.insertionSort (· ≤ ·) (bc.filterMap id).dedup

/-- Row of length `k` with a single `1` at index `idx` (and all zeros when
`idx ≥ k`). -/
def oneHot (k idx : Nat) : List ℤ :=
  (List.range k).map (fun j => if j = idx then 1 else 0)

/-- The row-segment contributed by one run for one object: a one-hot row at
the column id `bc2id[elem_bc]` of the label (ids are positions in the sorted
distinct label list), or an all-zero segment for a missing label. -/
def hgBlockRow (bc : List Label) : Label → List ℤ
  | some v => oneHot (uniqueLabels bc).length (List.indexOf v (uniqueLabels bc))
  | none => List.replicate (uniqueLabels bc).length 0

/-- The `N × K_r` incidence block `h` of a single run. -/
def hgBlock (bc : List Label) : List (List ℤ) :=
  bc.map (hgBlockRow bc)

/-- `np.hstack`: concatenate two matrices row by row. -/
def hstackM (A B : List (List α)) : List (List α) :=
  List.zipWith (· ++ ·) A B

/-- `create_hypergraph`: fold the per-run blocks together with `np.hstack`,
starting from `H = None` (so zero runs yield `none`, as the source would
return Python's `None`). -/
def create_hypergraph (bcs : List (List Label)) : Option (List (List ℤ)) :=
  bcs.foldl
    (fun H bc =>
      match H with
      | none => some (hgBlock bc)
      | some Hm => some (hstackM Hm (hgBlock bc)))
    none

/-! ## pymetis format adapter (`to_pymetis_format`) -/

/-- Indices (`np.nonzero(row)[0]`, in ascending order) and values
(`row[idx]`) of the nonzero entries of one row. -/
def rowNonzero (row : List ℤ) : List Nat × List ℤ :=
  let idx := (List.range row.length).filter (fun j => row.getD j 0 ≠ 0)
  (idx, idx.map (fun j => row.getD j 0))

/-- `to_pymetis_format`: build the CSR-like triple
`(xadj, adjncy, eweights)` row by row. -/
def to_pymetis_format (adj : List (List ℤ)) : List Nat × List Nat × List ℤ :=
  adj.foldl
    (fun acc row =>
      (acc.1 ++ [(acc.2.1 ++ (rowNonzero row).1).length],
        acc.2.1 ++ (rowNonzero row).1, acc.2.2 ++ (rowNonzero row).2))
    ([0], [], [])

/-- The type of the external pymetis partitioner: arguments are the number
of parts, `xadj`, `adjncy` and the optional integer edge weights; the result
is the membership vector. -/
abbrev Partitioner := Nat → List Nat → List Nat → Option (List ℤ) → List Nat

/-! ## CSPA -/

/-- `cspa`: partition the object co-occurrence graph `S = H·Hᵀ` and return
the membership vector unchanged.  `none` models the crash on zero runs. -/
def cspa (part : Partitioner) (bcs : List (List Label)) (ncls : Nat) :
    Option (List Nat) :=
  (create_hypergraph bcs).map (fun H =>
    let S := matMul H (transposeD 0 H)
    let t := to_pymetis_format S
    part ncls t.1 t.2.1 (some t.2.2))

/-! ## MCLA -/

/-- Jaccard distance between two boolean vectors, as computed by
`sklearn.metrics.pairwise_distances(metric='jaccard')`: the number of
positions where the entries differ divided by the number of positions where
at least one entry is set, and `0` when both vectors are all-false. -/
def jaccardDist (u v : List Bool) : ℚ :=
  let pairs := u.zip v
  let uni := pairs.countP (fun p => p.1 || p.2)
  let diff := pairs.countP (fun p => p.1 != p.2)
  if uni = 0 then 0 else (diff : ℚ) / (uni : ℚ)

/-- `astype(int)` on a float: truncation toward zero. -/
def truncQ (q : ℚ) : ℤ := Int.tdiv q.num (q.den : ℤ)

/-- The integer hyperedge-similarity matrix of MCLA:
`(1 - pairwise_jaccard(H.T)) * 1e3`, truncated to integer entrywise. -/
def mclaS (cols : List (List Bool)) : List (List ℤ) :=
  cols.map (fun ci => cols.map (fun cj => truncQ ((1 - jaccardDist ci cj) * 1000)))

/-- Row `i` of `meta_clusters`: for each meta-cluster `c`, the accumulated
sum (over hyperedges assigned to `c` by `membership`) of object `i`'s
boolean incidence entries — i.e. `meta_clusters[:, v] += H[:, i]`. -/
def mclaMetaRow (membership : List Nat) (hrow : List Bool) (ncls : Nat) :
    List ℤ :=
  (List.range ncls).map (fun c =>
    ((membership.zip hrow).map
      (fun p => if p.1 = c ∧ p.2 then (1 : ℤ) else 0)).sum)

/-- `np.max` of a list (meaningful for nonempty lists). -/
def listMax [LinearOrder α] (d : α) (v : List α) : α :=
  v.foldl max (v.headD d)

/-- `np.nonzero(v == np.max(v))[0]`: the ascending list of indices where
`v` attains its maximum. -/
def tiedIdx (v : List ℤ) : List Nat :=
  (List.range v.length).filter (fun j => v.getD j 0 = listMax 0 v)

/-- The type of the random tie-breaker `np.random.choice`. -/
abbrev Chooser := List Nat → Nat

/-- `mcla`: partition the hyperedges of `H` (as boolean columns) by their
pairwise Jaccard similarity, accumulate per-object meta-cluster counts, and
pick a maximal meta-cluster per object via the random chooser. -/
def mcla (part : Partitioner) (choice : Chooser) (bcs : List (List Label))
    (ncls : Nat) : Option (List Nat) :=
  (create_hypergraph bcs).map (fun H =>
    let Hb := H.map (fun row => row.map (fun x => x ≠ 0))
    let S := mclaS (transposeD false Hb)
    let t := to_pymetis_format S
    let membership := part ncls t.1 t.2.1 (some t.2.2)
    let meta := Hb.map (fun hrow => mclaMetaRow membership hrow ncls)
    meta.map (fun v => choice (tiedIdx v)))

/-! ## HBGF -/

/-- `hbgf`: partition the `(C+N) × (C+N)` bipartite adjacency
`[[0, Aᵀ], [A, 0]]` with no edge weights and drop the first `C` entries of
the membership vector. -/
def hbgf (part : Partitioner) (bcs : List (List Label)) (ncls : Nat) :
    Option (List Nat) :=
  (create_hypergraph bcs).map (fun A =>
    let rowA := A.length
    let colA := colsOf A
    let W := hstackM (zerosM colA colA) (transposeD 0 A) ++
      hstackM A (zerosM rowA rowA)
    let t := to_pymetis_format W
    (part ncls t.1 t.2.1 none).drop colA)

/-! ## NMF -/

/-- The `1e-8` additive safeguard of the NMF updates. -/
def epsQ : ℚ := 1 / 100000000

/-- One round of the bi-orthogonal three-factor NMF multiplicative updates:
first `Q ← Q ∘ sqrt(W·Q·S / (Q·Qᵀ·W·Q·S + ε))`, then (with the updated `Q`)
`S ← S ∘ sqrt(Qᵀ·W·Q / (QᵀQ·S·QᵀQ + ε))`.  The real square root of the
floating-point source is the explicit parameter `sqrtF`. -/
def onmfStep (sqrtF : ℚ → ℚ) (W : List (List ℚ))
    (p : List (List ℚ) × List (List ℚ)) :
    List (List ℚ) × List (List ℚ) :=
  let Q := p.1
  let S := p.2
  let WQS := matMul W (matMul Q S)
  let Qn := elemWise (· * ·) Q (elemMap sqrtF
    (elemWise (· / ·) WQS
      (elemAddC epsQ (matMul Q (matMul (transposeD 0 Q) WQS)))))
  let QTQ := matMul (transposeD 0 Qn) Qn
  let Sn := elemWise (· * ·) S (elemMap sqrtF
    (elemWise (· / ·) (matMul (transposeD 0 Qn) (matMul W Qn))
      (elemAddC epsQ (matMul QTQ (matMul S QTQ)))))
  (Qn, Sn)

/-- `np.random.rand(n, k)`: the `n × k` matrix of draws from the random
source `rnd`. -/
def initQ (rnd : Nat → Nat → ℚ) (n k : Nat) : List (List ℚ) :=
  (List.range n).map (fun i => (List.range k).map (fun j => rnd i j))

/-- `orthogonal_nmf_algorithm`: random initialization of `Q` (an
`n × ncls` uniform draw) and `S` (a diagonal matrix of uniform draws),
followed by exactly `maxiter` update rounds (the source's default is
`maxiter = 500`); there is no convergence check. -/
def orthogonal_nmf_algorithm (sqrtF : ℚ → ℚ) (rnd : Nat → Nat → ℚ)
    (rndD : Nat → ℚ) (W : List (List ℚ)) (ncls maxiter : Nat) :
    List (List ℚ) × List (List ℚ) :=
  let Q := initQ rnd W.length ncls
  let S := diagM ((List.range ncls).map rndD)
  (List.range maxiter).foldl (fun p _ => onmfStep sqrtF W p) (Q, S)

/-- `np.argmax` of a vector: the index of the first occurrence of the
maximum entry. -/
def argmaxFirst (v : List ℚ) : Nat :=
  List.indexOf (listMax 0 v) v

/-- The NMF solver with an explicit iteration count (the source's `nmf`
fixes `maxiter = 500` through the default of `orthogonal_nmf_algorithm`):
factorize the connectivity matrix and take the rowwise first-argmax of
`Q·sqrt(S)`. -/
def nmfWith (sqrtF : ℚ → ℚ) (rnd : Nat → Nat → ℚ) (rndD : Nat → ℚ)
    (bcs : List (List Label)) (ncls maxiter : Nat) : List Nat :=
  let M := create_connectivity_matrix bcs
  let p := orthogonal_nmf_algorithm sqrtF rnd rndD M ncls maxiter
  (matMul p.1 (elemMap sqrtF p.2)).map argmaxFirst

/-- `nmf`: the source solver, running the default 500 update rounds. -/
def nmf (sqrtF : ℚ → ℚ) (rnd : Nat → Nat → ℚ) (rndD : Nat → ℚ)
    (bcs : List (List Label)) (ncls : Nat) : List Nat :=
  nmfWith sqrtF rnd rndD bcs ncls 500

/-! ## Orchestrator (`cluster_ensembles`) -/

/-- The default class count: starting from `-1`, the maximum over all runs
of the number of distinct non-missing labels of the run. -/
def defaultNcls (bcs : List (List Label)) : ℤ :=
  bcs.foldl (fun acc bc => max acc ((uniqueLabels bc).length : ℤ)) (-1)

/-- `cluster_ensembles`: default the class count when omitted, validate it
and the solver name (raising `ValueError`, modelled as `Except.error`, with
the source's message contents), and dispatch to the selected solver,
returning its label vector unchanged.  The inner `Option` models the
solvers' crash on an empty run list; the `verbose` printing of the source
has no functional effect and is not modelled. -/
def cluster_ensembles (part : Partitioner) (choice : Chooser)
    (sqrtF : ℚ → ℚ) (rnd : Nat → Nat → ℚ) (rndD : Nat → ℚ)
    (bcs : List (List Label)) (nclsOpt : Option ℤ) (solver : String) :
    Except String (Option (List Nat)) :=
  let ncls : ℤ := nclsOpt.getD (defaultNcls bcs)
  if ncls ≤ 0 then
    Except.error
      ("Number of class must be a positive integer; got (nclass=" ++
        toString ncls ++ ")")
  else if solver = "cspa" then Except.ok (cspa part bcs ncls.toNat)
  else if solver = "mcla" then Except.ok (mcla part choice bcs ncls.toNat)
  else if solver = "hbgf" then Except.ok (hbgf part bcs ncls.toNat)
  else if solver = "nmf" then
    Except.ok (some (nmf sqrtF rnd rndD bcs ncls.toNat))
  else
    Except.error
      ("Invalid solver parameter: got " ++ solver ++
        " instead of one of (cspa, mcla, hbgf, nmf)")

/-- Entry `(i, j)` of a row-major matrix, with default `d`. -/
def entryD (m : List (List α)) (i j : Nat) (d : α) : α :=
  (m.getD i []).getD j d

/-! ## Basic lemmas about the helpers -/

theorem getD_eq_getElem_of_lt (l : List α) (d : α) {n : Nat}
    (h : n < l.length) : l.getD n d = l[n] := by
  simp [List.getD_eq_getElem?_getD, List.getElem?_eq_getElem h]

theorem getD_map_of_lt (f : α → β) (l : List α) (d : α) (d' : β) {n : Nat}
    (h : n < l.length) : (l.map f).getD n d' = f (l.getD n d) := by
  rw [getD_eq_getElem_of_lt _ _ (by simpa using h), getD_eq_getElem_of_lt _ _ h]
  simp

theorem getD_mem_of_lt (l : List α) (d : α) {n : Nat} (h : n < l.length) :
    l.getD n d ∈ l := by
  rw [getD_eq_getElem_of_lt _ _ h]; exact List.getElem_mem h

theorem elemWise_entry (f : α → β → γ) (A : List (List α))
    (B : List (List β)) {i j : Nat} (dA : α) (dB : β) (d : γ)
    (hiA : i < A.length) (hiB : i < B.length)
    (hjA : j < (A.getD i []).length) (hjB : j < (B.getD i []).length) :
    entryD (elemWise f A B) i j d = f (entryD A i j dA) (entryD B i j dB) := by
  have h1 : (A.getD i []) = A[i] := getD_eq_getElem_of_lt _ _ hiA
  have h2 : (B.getD i []) = B[i] := getD_eq_getElem_of_lt _ _ hiB
  rw [h1] at hjA
  rw [h2] at hjB
  unfold entryD elemWise
  have hz : i < (List.zipWith (List.zipWith f) A B).length := by
    simp [List.length_zipWith]; omega
  rw [getD_eq_getElem_of_lt _ _ hz, List.getElem_zipWith]
  have hz2 : j < (List.zipWith f A[i] B[i]).length := by
    rw [List.length_zipWith]; omega
  rw [getD_eq_getElem_of_lt _ _ hz2, List.getElem_zipWith, h1, h2]
  rw [getD_eq_getElem_of_lt _ _ hjA, getD_eq_getElem_of_lt _ _ hjB]

theorem isRect_elemWise (f : α → β → γ) {A : List (List α)}
    {B : List (List β)} {r c : Nat} (hA : IsRect A r c) (hB : IsRect B r c) :
    IsRect (elemWise f A B) r c := by
  obtain ⟨hAl, hAr⟩ := hA
  obtain ⟨hBl, hBr⟩ := hB
  constructor
  · simp [elemWise, List.length_zipWith, hAl, hBl]
  · intro row hrow
    rw [List.mem_iff_getElem] at hrow
    obtain ⟨i, hi, rfl⟩ := hrow
    unfold elemWise
    rw [List.getElem_zipWith, List.length_zipWith]
    have hiA : i < A.length := by
      simp [elemWise, List.length_zipWith, hAl, hBl] at hi; omega
    have hiB : i < B.length := by
      simp [elemWise, List.length_zipWith, hAl, hBl] at hi; omega
    rw [hAr _ (List.getElem_mem hiA), hBr _ (List.getElem_mem hiB)]
    simp

theorem isRect_runMatrix {bc : List Label} {n : Nat} (h : bc.length = n) :
    IsRect (runMatrix bc) n n := by
  constructor
  · simp [runMatrix, h]
  · intro row hrow
    simp [runMatrix] at hrow
    obtain ⟨x, _, rfl⟩ := hrow
    simp [connRow, h]

theorem isRect_zerosM [Zero α] (r c : Nat) :
    IsRect (zerosM (α := α) r c) r c := by
  constructor
  · simp [zerosM]
  · intro row hrow
    simp [zerosM] at hrow
    simp [hrow]

theorem entryD_zerosM [Zero α] {r c i j : Nat} (d : α) (hi : i < r)
    (hj : j < c) : entryD (zerosM (α := α) r c) i j d = 0 := by
  unfold entryD zerosM
  have h1 : i < (List.replicate r (List.replicate c (0 : α))).length := by
    simpa using hi
  rw [getD_eq_getElem_of_lt _ _ h1, List.getElem_replicate]
  have h2 : j < (List.replicate c (0 : α)).length := by simpa using hj
  rw [getD_eq_getElem_of_lt _ _ h2, List.getElem_replicate]

theorem runMatrix_entry {bc : List Label} {n i j : Nat} (h : bc.length = n)
    (hi : i < n) (hj : j < n) :
    entryD (runMatrix bc) i j 0 =
      if labelEq (bc.getD i none) (bc.getD j none) then (1 : ℚ) else 0 := by
  unfold entryD runMatrix
  rw [getD_map_of_lt (connRow bc) bc none [] (by omega)]
  unfold connRow
  rw [getD_map_of_lt _ bc none 0 (by omega)]

theorem connFoldl_rect {N : Nat} :
    ∀ (bcs : List (List Label)) (A : List (List ℚ)), IsRect A N N →
      (∀ bc ∈ bcs, bc.length = N) →
      IsRect (bcs.foldl (fun M bc => elemWise (· + ·) M (runMatrix bc)) A) N N := by
  intro bcs
  induction bcs with
  | nil => intro A hA _; exact hA
  | cons bc rest ih =>
    intro A hA hlen
    simp only [List.foldl_cons]
    exact ih _ (isRect_elemWise _ hA (isRect_runMatrix (hlen bc (by simp))))
      (fun b hb => hlen b (by simp [hb]))

theorem connFoldl_entry {N i j : Nat} (hi : i < N) (hj : j < N) :
    ∀ (bcs : List (List Label)) (A : List (List ℚ)), IsRect A N N →
      (∀ bc ∈ bcs, bc.length = N) →
      entryD (bcs.foldl (fun M bc => elemWise (· + ·) M (runMatrix bc)) A) i j 0 =
        entryD A i j 0 +
          (bcs.countP (fun bc => labelEq (bc.getD i none) (bc.getD j none)) : ℚ) := by
  intro bcs
  induction bcs with
  | nil => intro A _ _; simp
  | cons bc rest ih =>
    intro A hA hlen
    have hbc : bc.length = N := hlen bc (by simp)
    have hrm : IsRect (runMatrix bc) N N := isRect_runMatrix hbc
    have hA' : IsRect (elemWise (· + ·) A (runMatrix bc)) N N :=
      isRect_elemWise _ hA hrm
    simp only [List.foldl_cons]
    rw [ih _ hA' (fun b hb => hlen b (by simp [hb]))]
    have he : entryD (elemWise (· + ·) A (runMatrix bc)) i j 0 =
        entryD A i j 0 + entryD (runMatrix bc) i j 0 := by
      apply elemWise_entry (· + ·) A (runMatrix bc) 0 0 0
      · rw [hA.1]; omega
      · rw [hrm.1]; omega
      · rw [hA.2 _ (getD_mem_of_lt A [] (by rw [hA.1]; omega))]; omega
      · rw [hrm.2 _ (getD_mem_of_lt (runMatrix bc) [] (by rw [hrm.1]; omega))]
        omega
    rw [he, runMatrix_entry hbc hi hj, List.countP_cons]
    push_cast
    by_cases hl : labelEq (bc.getD i none) (bc.getD j none) <;> simp [hl] <;> ring

theorem labelEq_symm (x y : Label) : labelEq x y = labelEq y x := by
  cases x <;> cases y <;> simp [labelEq]
  exact ⟨fun h => h.symm, fun h => h.symm⟩

theorem labelEq_self_iff (x : Label) : labelEq x x = decide (x ≠ none) := by
  cases x <;> simp [labelEq]

theorem headD_length {N : Nat} {bcs : List (List Label)} (hne : bcs ≠ [])
    (hrect : ∀ bc ∈ bcs, bc.length = N) : (bcs.headD []).length = N := by
  cases bcs with
  | nil => exact absurd rfl hne
  | cons b rest => exact hrect b (by simp)

theorem create_connectivity_matrix_rect {N : Nat} {bcs : List (List Label)}
    (hne : bcs ≠ []) (hrect : ∀ bc ∈ bcs, bc.length = N) :
    IsRect (create_connectivity_matrix bcs) N N := by
  unfold create_connectivity_matrix
  rw [headD_length hne hrect]
  have hM := connFoldl_rect bcs (zerosM N N) (isRect_zerosM N N) hrect
  constructor
  · simp [hM.1]
  · intro row hrow
    simp only [List.mem_map] at hrow
    obtain ⟨row0, hrow0, rfl⟩ := hrow
    simp [hM.2 _ hrow0]

theorem create_connectivity_matrix_entry {N : Nat} {bcs : List (List Label)}
    (hne : bcs ≠ []) (hrect : ∀ bc ∈ bcs, bc.length = N) {i j : Nat}
    (hi : i < N) (hj : j < N) :
    entryD (create_connectivity_matrix bcs) i j 0 =
      (bcs.countP (fun bc => labelEq (bc.getD i none) (bc.getD j none)) : ℚ) /
        (bcs.length : ℚ) := by
  unfold create_connectivity_matrix
  rw [headD_length hne hrect]
  have hM := connFoldl_rect bcs (zerosM N N) (isRect_zerosM N N) hrect
  unfold entryD
  rw [getD_map_of_lt _ _ [] [] (by rw [hM.1]; omega)]
  rw [getD_map_of_lt _ _ 0 0
    (by rw [hM.2 _ (getD_mem_of_lt _ [] (by rw [hM.1]; omega))]; omega)]
  have hfe := connFoldl_entry hi hj bcs (zerosM N N) (isRect_zerosM N N) hrect
  have hz : entryD (zerosM (α := ℚ) N N) i j 0 = 0 := entryD_zerosM 0 hi hj
  unfold entryD at hfe hz
  rw [hfe, hz, zero_add]

/-- C4: `create_connectivity_matrix` returns a symmetric `N × N` matrix with
entries in `[0, 1]`; entry `(i, j)` is the number of runs in which objects
`i` and `j` carry equal labels — under an equality where a missing value
never equals anything, another missing value included — divided by the
number of runs `R`. -/
theorem claim_C4 {N : Nat} (bcs : List (List Label)) (hne : bcs ≠ [])
    (hrect : ∀ bc ∈ bcs, bc.length = N) :
    IsRect (create_connectivity_matrix bcs) N N ∧
    (∀ x : Label, labelEq none x = false ∧ labelEq x none = false) ∧
    ∀ i j, i < N → j < N →
      entryD (create_connectivity_matrix bcs) i j 0 =
        (bcs.countP (fun bc => labelEq (bc.getD i none) (bc.getD j none)) : ℚ) /
          (bcs.length : ℚ) ∧
      entryD (create_connectivity_matrix bcs) i j 0 =
        entryD (create_connectivity_matrix bcs) j i 0 ∧
      0 ≤ entryD (create_connectivity_matrix bcs) i j 0 ∧
      entryD (create_connectivity_matrix bcs) i j 0 ≤ 1 := by
  have hR : 0 < bcs.length := List.length_pos.mpr hne
  refine ⟨create_connectivity_matrix_rect hne hrect, ?_, ?_⟩
  · intro x
    exact ⟨rfl, by cases x <;> rfl⟩
  · intro i j hi hj
    have hij := create_connectivity_matrix_entry hne hrect hi hj
    have hji := create_connectivity_matrix_entry hne hrect hj hi
    refine ⟨hij, ?_, ?_, ?_⟩
    · rw [hij, hji]
      congr 1
      congr 1
      exact List.countP_congr (fun bc _ => by rw [labelEq_symm])
    · rw [hij]
      positivity
    · rw [hij]
      rw [div_le_one (by exact_mod_cast hR)]
      exact_mod_cast List.countP_le_length _

/-- C2 as stated is false: for the single run `[[NaN]]` (one object whose
label is missing in the only run), the diagonal entry of the connectivity
matrix is `0`, not `1`. -/
theorem claim_C2_counterexample :
    entryD (create_connectivity_matrix [[(none : Label)]]) 0 0 0 ≠ 1 := by
  norm_num [create_connectivity_matrix, entryD, elemWise, runMatrix, connRow,
    labelEq, zerosM, List.foldl]

/-- C2 amended: diagonal entry `i` of `create_connectivity_matrix` equals
the fraction of runs in which object `i`'s label is non-missing; in
particular it equals `1` exactly on inputs where object `i`'s label is
non-missing in every run (so for a fully missing object it is `0`,
not `1`). -/
theorem claim_C2_amended {N : Nat} (bcs : List (List Label)) (hne : bcs ≠ [])
    (hrect : ∀ bc ∈ bcs, bc.length = N) :
    ∀ i, i < N →
      entryD (create_connectivity_matrix bcs) i i 0 =
        (bcs.countP (fun bc => bc.getD i none ≠ none) : ℚ) / (bcs.length : ℚ) ∧
      ((∀ bc ∈ bcs, bc.getD i none ≠ none) →
        entryD (create_connectivity_matrix bcs) i i 0 = 1) := by
  intro i hi
  have hR : 0 < bcs.length := List.length_pos.mpr hne
  have hii := create_connectivity_matrix_entry hne hrect hi hi
  have hcount : (bcs.countP (fun bc => labelEq (bc.getD i none) (bc.getD i none))) =
      (bcs.countP (fun bc => bc.getD i none ≠ none)) :=
    List.countP_congr (fun bc _ => by rw [labelEq_self_iff])
  constructor
  · rw [hii, hcount]
  · intro hall
    rw [hii, hcount]
    have : List.countP (fun bc => bc.getD i none ≠ none) bcs = bcs.length := by
      rw [List.countP_eq_length]
      intro bc hbc
      simpa using hall bc hbc
    rw [this, div_self (Nat.cast_ne_zero.mpr hR.ne')]

/-- Witness for C4 at the concrete input `[[0, NaN], [0, 0]]`. -/
theorem claim_C4_witness :
    (([[some 0, none], [some 0, some 0]] : List (List Label)) ≠ [] ∧
      ∀ bc ∈ ([[some 0, none], [some 0, some 0]] : List (List Label)),
        bc.length = 2) ∧
    (IsRect (create_connectivity_matrix [[some 0, none], [some 0, some 0]]) 2 2 ∧
    (∀ x : Label, labelEq none x = false ∧ labelEq x none = false) ∧
    ∀ i j, i < 2 → j < 2 →
      entryD (create_connectivity_matrix [[some 0, none], [some 0, some 0]]) i j 0 =
        (([[some 0, none], [some 0, some 0]] : List (List Label)).countP
          (fun bc => labelEq (bc.getD i none) (bc.getD j none)) : ℚ) /
          (([[some 0, none], [some 0, some 0]] : List (List Label)).length : ℚ) ∧
      entryD (create_connectivity_matrix [[some 0, none], [some 0, some 0]]) i j 0 =
        entryD (create_connectivity_matrix [[some 0, none], [some 0, some 0]]) j i 0 ∧
      0 ≤ entryD (create_connectivity_matrix [[some 0, none], [some 0, some 0]]) i j 0 ∧
      entryD (create_connectivity_matrix [[some 0, none], [some 0, some 0]]) i j 0 ≤ 1) :=
  ⟨⟨by simp, by decide⟩, claim_C4 _ (by simp) (by decide)⟩

/-- Witness for the amended C2 at the concrete input `[[0, NaN], [0, 0]]`. -/
theorem claim_C2_amended_witness :
    (([[some 0, none], [some 0, some 0]] : List (List Label)) ≠ [] ∧
      ∀ bc ∈ ([[some 0, none], [some 0, some 0]] : List (List Label)),
        bc.length = 2) ∧
    ∀ i, i < 2 →
      entryD (create_connectivity_matrix [[some 0, none], [some 0, some 0]]) i i 0 =
        (([[some 0, none], [some 0, some 0]] : List (List Label)).countP
          (fun bc => bc.getD i none ≠ none) : ℚ) /
          (([[some 0, none], [some 0, some 0]] : List (List Label)).length : ℚ) ∧
      ((∀ bc ∈ ([[some 0, none], [some 0, some 0]] : List (List Label)),
          bc.getD i none ≠ none) →
        entryD (create_connectivity_matrix [[some 0, none], [some 0, some 0]]) i i 0 = 1) :=
  ⟨⟨by simp, by decide⟩, claim_C2_amended _ (by simp) (by decide)⟩

/-! ## Structure of `create_hypergraph` -/

/-- Row `i` of the full incidence matrix: the concatenation, in run order,
of the per-run row-segments. -/
def hgRow (bcs : List (List Label)) (i : Nat) : List ℤ :=
  (bcs.map (fun bc => hgBlockRow bc (bc.getD i none))).flatten

theorem hgBlockRow_length (bc : List Label) (x : Label) :
    (hgBlockRow bc x).length = (uniqueLabels bc).length := by
  cases x <;> simp [hgBlockRow, oneHot]

theorem hgBlock_length (bc : List Label) : (hgBlock bc).length = bc.length := by
  simp [hgBlock]

theorem hgBlock_getD {bc : List Label} {i : Nat} (hi : i < bc.length) :
    (hgBlock bc).getD i [] = hgBlockRow bc (bc.getD i none) := by
  unfold hgBlock
  exact getD_map_of_lt _ _ none [] hi

theorem hstack_foldl_length {N : Nat} :
    ∀ (runs : List (List Label)) (M : List (List ℤ)), M.length = N →
      (∀ bc ∈ runs, bc.length = N) →
      (runs.foldl (fun A bc => hstackM A (hgBlock bc)) M).length = N := by
  intro runs
  induction runs with
  | nil => intro M hM _; exact hM
  | cons bc rest ih =>
    intro M hM hlen
    simp only [List.foldl_cons]
    apply ih
    · simp [hstackM, List.length_zipWith, hM, hgBlock_length,
        hlen bc (by simp)]
    · exact fun b hb => hlen b (by simp [hb])

theorem hstack_foldl_getD {N i : Nat} (hi : i < N) :
    ∀ (runs : List (List Label)) (M : List (List ℤ)), M.length = N →
      (∀ bc ∈ runs, bc.length = N) →
      (runs.foldl (fun A bc => hstackM A (hgBlock bc)) M).getD i [] =
        M.getD i [] ++
          (runs.map (fun bc => hgBlockRow bc (bc.getD i none))).flatten := by
  intro runs
  induction runs with
  | nil => intro M _ _; simp
  | cons bc rest ih =>
    intro M hM hlen
    have hbc : bc.length = N := hlen bc (by simp)
    simp only [List.foldl_cons]
    rw [ih _ (by simp [hstackM, List.length_zipWith, hM, hgBlock_length, hbc])
      (fun b hb => hlen b (by simp [hb]))]
    have hstep : (hstackM M (hgBlock bc)).getD i [] =
        M.getD i [] ++ (hgBlock bc).getD i [] := by
      unfold hstackM
      have hzl : i < (List.zipWith (· ++ ·) M (hgBlock bc)).length := by
        simp [List.length_zipWith, hM, hgBlock_length, hbc]; omega
      rw [getD_eq_getElem_of_lt _ _ hzl, List.getElem_zipWith]
      rw [getD_eq_getElem_of_lt _ _ (by omega : i < M.length),
        getD_eq_getElem_of_lt _ _ (by rw [hgBlock_length]; omega)]
    rw [hstep, hgBlock_getD (by omega)]
    simp [hgRow]

theorem create_hypergraph_eq {N : Nat} {bcs : List (List Label)}
    (hne : bcs ≠ []) (hrect : ∀ bc ∈ bcs, bc.length = N) :
    create_hypergraph bcs = some ((List.range N).map (hgRow bcs)) := by
  obtain ⟨b, rest, rfl⟩ := List.exists_cons_of_ne_nil hne
  have hb : b.length = N := hrect b (by simp)
  have hsome : ∀ (runs : List (List Label)) (M : List (List ℤ)),
      runs.foldl
        (fun H bc =>
          match H with
          | none => some (hgBlock bc)
          | some Hm => some (hstackM Hm (hgBlock bc)))
        (some M) =
        some (runs.foldl (fun A bc => hstackM A (hgBlock bc)) M) := by
    intro runs
    induction runs with
    | nil => intro M; rfl
    | cons r rs ih => intro M; simp only [List.foldl_cons]; exact ih _
  unfold create_hypergraph
  simp only [List.foldl_cons]
  rw [hsome rest (hgBlock b)]
  congr 1
  have hrest : ∀ bc ∈ rest, bc.length = N := fun c hc => hrect c (by simp [hc])
  have hlen : (rest.foldl (fun A bc => hstackM A (hgBlock bc)) (hgBlock b)).length = N :=
    hstack_foldl_length rest (hgBlock b) (by rw [hgBlock_length, hb]) hrest
  apply List.ext_getElem
  · simp [hlen]
  · intro i hi1 hi2
    have hiN : i < N := by rw [hlen] at hi1; omega
    have hrow := hstack_foldl_getD hiN rest (hgBlock b)
      (by rw [hgBlock_length, hb]) hrest
    rw [getD_eq_getElem_of_lt _ [] hi1] at hrow
    rw [hrow]
    rw [List.getElem_map]
    rw [List.getElem_range]
    rw [hgBlock_getD (by omega)]
    simp [hgRow]

theorem hgRow_length (bcs : List (List Label)) (i : Nat) :
    (hgRow bcs i).length = (bcs.map (fun bc => (uniqueLabels bc).length)).sum := by
  unfold hgRow
  rw [List.length_flatten]
  congr 1
  simp [hgBlockRow_length]

theorem uniqueLabels_sorted (bc : List Label) :
    List.Sorted (· < ·) (uniqueLabels bc) := by
  unfold uniqueLabels
  apply List.Sorted.lt_of_le (List.sorted_insertionSort _ _)
  exact (List.perm_insertionSort _ _).symm.nodup (List.nodup_dedup _)

theorem uniqueLabels_mem (bc : List Label) (x : ℤ) :
    x ∈ uniqueLabels bc ↔ some x ∈ bc := by
  unfold uniqueLabels
  rw [(List.perm_insertionSort _ _).mem_iff, List.mem_dedup, List.mem_filterMap]
  constructor
  · rintro ⟨a, ha, rfl⟩; exact ha
  · intro h; exact ⟨some x, h, rfl⟩

theorem oneHot_getD {k t j : Nat} (hj : j < k) :
    (oneHot k t).getD j 0 = if j = t then 1 else 0 := by
  unfold oneHot
  rw [getD_eq_getElem_of_lt _ _ (by simpa using hj), List.getElem_map,
    List.getElem_range]

/-- C3: `create_hypergraph` returns (for at least one run) the `N × ΣK_r`
matrix whose row `i` is the concatenation, in run order, of one segment per
run; run `r`'s segment has width `K_r` (its number of distinct non-missing
labels), carries a single `1` at the sorted-order column id of
`bc_r[i]` when that label is non-missing, and is all zero when it is
missing; every row's total length is `ΣK_r` even when some run contributes
zero columns. -/
theorem claim_C3 {N : Nat} (bcs : List (List Label)) (hne : bcs ≠ [])
    (hrect : ∀ bc ∈ bcs, bc.length = N) :
    ∃ H, create_hypergraph bcs = some H ∧
      H.length = N ∧
      (∀ i, i < N →
        H.getD i [] =
          (bcs.map (fun bc => hgBlockRow bc (bc.getD i none))).flatten ∧
        (H.getD i []).length =
          (bcs.map (fun bc => (uniqueLabels bc).length)).sum) ∧
      (∀ bc : List Label,
        List.Sorted (· < ·) (uniqueLabels bc) ∧
        (∀ x : ℤ, x ∈ uniqueLabels bc ↔ some x ∈ bc) ∧
        hgBlockRow bc none = List.replicate (uniqueLabels bc).length 0 ∧
        ∀ v : ℤ,
          (hgBlockRow bc (some v)).length = (uniqueLabels bc).length ∧
          ∀ j, j < (uniqueLabels bc).length →
            (hgBlockRow bc (some v)).getD j 0 =
              if j = List.indexOf v (uniqueLabels bc) then 1 else 0) := by
  refine ⟨(List.range N).map (hgRow bcs), create_hypergraph_eq hne hrect,
    by simp, ?_, ?_⟩
  · intro i hi
    have hget : ((List.range N).map (hgRow bcs)).getD i [] = hgRow bcs i := by
      rw [getD_eq_getElem_of_lt _ _ (by simpa using hi), List.getElem_map,
        List.getElem_range]
    rw [hget]
    exact ⟨rfl, hgRow_length bcs i⟩
  · intro bc
    refine ⟨uniqueLabels_sorted bc, uniqueLabels_mem bc, rfl, ?_⟩
    intro v
    refine ⟨hgBlockRow_length bc (some v), ?_⟩
    intro j hj
    exact oneHot_getD hj

/-- Witness for C3 at `[[5, NaN, 2], [1, 1, 1]]`. -/
theorem claim_C3_witness :
    (([[some 5, none, some 2], [some 1, some 1, some 1]] : List (List Label)) ≠ [] ∧
      ∀ bc ∈ ([[some 5, none, some 2], [some 1, some 1, some 1]] : List (List Label)),
        bc.length = 3) ∧
    ∃ H, create_hypergraph [[some 5, none, some 2], [some 1, some 1, some 1]] = some H ∧
      H.length = 3 ∧
      (∀ i, i < 3 →
        H.getD i [] =
          (([[some 5, none, some 2], [some 1, some 1, some 1]] : List (List Label)).map
            (fun bc => hgBlockRow bc (bc.getD i none))).flatten ∧
        (H.getD i []).length =
          (([[some 5, none, some 2], [some 1, some 1, some 1]] : List (List Label)).map
            (fun bc => (uniqueLabels bc).length)).sum) ∧
      (∀ bc : List Label,
        List.Sorted (· < ·) (uniqueLabels bc) ∧
        (∀ x : ℤ, x ∈ uniqueLabels bc ↔ some x ∈ bc) ∧
        hgBlockRow bc none = List.replicate (uniqueLabels bc).length 0 ∧
        ∀ v : ℤ,
          (hgBlockRow bc (some v)).length = (uniqueLabels bc).length ∧
          ∀ j, j < (uniqueLabels bc).length →
            (hgBlockRow bc (some v)).getD j 0 =
              if j = List.indexOf v (uniqueLabels bc) then 1 else 0) :=
  ⟨⟨by simp, by decide⟩, claim_C3 _ (by simp) (by decide)⟩

/-! ## Binary rows and inner products -/

theorem hgBlockRow_binary (bc : List Label) (x : Label) :
    ∀ y ∈ hgBlockRow bc x, y = 0 ∨ y = 1 := by
  cases x with
  | none => intro y hy; simp [hgBlockRow] at hy; simp [hy]
  | some v =>
    intro y hy
    simp [hgBlockRow, oneHot] at hy
    obtain ⟨j, _, rfl⟩ := hy
    by_cases h : j = List.indexOf v (uniqueLabels bc) <;> simp [h]

theorem hgRow_binary (bcs : List (List Label)) (i : Nat) :
    ∀ y ∈ hgRow bcs i, y = 0 ∨ y = 1 := by
  intro y hy
  unfold hgRow at hy
  rw [List.mem_flatten] at hy
  obtain ⟨l, hl, hyl⟩ := hy
  simp only [List.mem_map] at hl
  obtain ⟨bc, _, rfl⟩ := hl
  exact hgBlockRow_binary bc _ y hyl

theorem dotL_comm [NonUnitalCommSemiring α] (u v : List α) :
    dotL u v = dotL v u := by
  induction u generalizing v with
  | nil => cases v <;> simp [dotL]
  | cons a u ih =>
    cases v with
    | nil => simp [dotL]
    | cons b v =>
      simp only [dotL, List.zip_cons_cons, List.map_cons, List.sum_cons]
      rw [mul_comm]
      congr 1
      exact ih v

theorem dotL_append {α : Type} [NonUnitalNonAssocSemiring α]
    (a b u v : List α) (h : a.length = b.length) :
    dotL (a ++ u) (b ++ v) = dotL a b + dotL u v := by
  unfold dotL
  rw [List.zip_append h, List.map_append, List.sum_append]

theorem dotL_binary_count (u v : List ℤ)
    (hu : ∀ y ∈ u, y = 0 ∨ y = 1) (hv : ∀ y ∈ v, y = 0 ∨ y = 1) :
    dotL u v = ((u.zip v).countP (fun p => p.1 = 1 ∧ p.2 = 1) : ℤ) := by
  induction u generalizing v with
  | nil => cases v <;> simp [dotL]
  | cons a u ih =>
    cases v with
    | nil => simp [dotL]
    | cons b v =>
      simp only [dotL, List.zip_cons_cons, List.map_cons, List.sum_cons,
        List.countP_cons]
      have ha := hu a (by simp)
      have hb := hv b (by simp)
      have hrest := ih v (fun y hy => hu y (by simp [hy]))
        (fun y hy => hv y (by simp [hy]))
      unfold dotL at hrest
      rw [hrest]
      rcases ha with rfl | rfl <;> rcases hb with rfl | rfl <;>
        (simp; try ring)

theorem dotL_self_binary (u : List ℤ) (hu : ∀ y ∈ u, y = 0 ∨ y = 1) :
    dotL u u = u.sum := by
  induction u with
  | nil => simp [dotL]
  | cons a u ih =>
    simp only [dotL, List.zip_cons_cons, List.map_cons, List.sum_cons]
    have ha := hu a (by simp)
    have hrest := ih (fun y hy => hu y (by simp [hy]))
    unfold dotL at hrest
    rw [hrest]
    rcases ha with rfl | rfl <;> ring

theorem oneHot_sum (k t : Nat) :
    (oneHot k t).sum = if t < k then 1 else 0 := by
  induction k with
  | zero => simp [oneHot]
  | succ k ih =>
    unfold oneHot at *
    rw [List.range_succ, List.map_append, List.sum_append, ih]
    by_cases h1 : t < k
    · have h2 : ¬(k = t) := by omega
      simp [h1, h2]
      omega
    · by_cases h2 : t = k
      · simp [h1, h2]
      · have h3 : ¬(t < k + 1) := by omega
        simp [h1, h2, h3]
        intro h
        omega

theorem colsOf_rect {m : List (List α)} {r c : Nat} (hm : IsRect m r c)
    (hr : 0 < r) : colsOf m = c := by
  unfold colsOf
  cases m with
  | nil => rw [hm.1.symm] at hr; simp at hr
  | cons row rest => exact hm.2 row (by simp)

theorem matMul_length [Add α] [Mul α] [Zero α] (A B : List (List α)) :
    (matMul A B).length = A.length := by
  simp [matMul]

theorem matMul_rect [Add α] [Mul α] [Zero α] (A B : List (List α)) :
    IsRect (matMul A B) A.length (colsOf B) := by
  constructor
  · simp [matMul]
  · intro row hrow
    simp only [matMul, List.mem_map] at hrow
    obtain ⟨r, _, rfl⟩ := hrow
    simp

theorem matMul_entry [Add α] [Mul α] [Zero α] (A B : List (List α))
    {i j : Nat} (hi : i < A.length) (hj : j < colsOf B) :
    entryD (matMul A B) i j 0 = dotL (A.getD i []) (colD B j 0) := by
  unfold entryD matMul
  have h1 : i < (A.map
      (fun r => (List.range (colsOf B)).map (fun t => dotL r (colD B t 0)))).length := by
    simpa using hi
  rw [getD_eq_getElem_of_lt _ _ h1, List.getElem_map]
  have h2 : j < ((List.range (colsOf B)).map
      (fun t => dotL A[i] (colD B t 0))).length := by
    simpa using hj
  rw [getD_eq_getElem_of_lt _ _ h2, List.getElem_map, List.getElem_range]
  rw [getD_eq_getElem_of_lt _ _ hi]

theorem transposeD_col {m : List (List α)} {r c : Nat} [Zero α]
    (hm : IsRect m r c) {j : Nat} (hj : j < r) :
    colD (transposeD (0 : α) m) j 0 = m.getD j [] := by
  have hrow : (m.getD j []).length = c :=
    hm.2 _ (getD_mem_of_lt m [] (by rw [hm.1]; omega))
  have hcols : colsOf m = c := colsOf_rect hm (by omega)
  unfold transposeD colD
  rw [List.map_map]
  apply List.ext_getElem
  · have hrow' := hrow
    rw [List.getD_eq_getElem?_getD] at hrow'
    simp [hcols, hrow']
  · intro t ht1 ht2
    simp only [List.getElem_map, List.getElem_range, Function.comp]
    rw [getD_map_of_lt _ _ [] 0 (by rw [hm.1]; omega)]
    rw [getD_eq_getElem_of_lt _ _ ht2]

/-- Rows of the incidence matrix produced by `create_hypergraph`. -/
theorem hgH_rect (N : Nat) (bcs : List (List Label)) :
    IsRect ((List.range N).map (hgRow bcs)) N
      ((bcs.map (fun bc => (uniqueLabels bc).length)).sum) := by
  constructor
  · simp
  · intro row hrow
    simp only [List.mem_map, List.mem_range] at hrow
    obtain ⟨i, _, rfl⟩ := hrow
    exact hgRow_length bcs i

theorem hgH_getD {N i : Nat} (bcs : List (List Label)) (hi : i < N) :
    ((List.range N).map (hgRow bcs)).getD i [] = hgRow bcs i := by
  rw [getD_eq_getElem_of_lt _ _ (by simpa using hi), List.getElem_map,
    List.getElem_range]

theorem cspaS_entry {N : Nat} (bcs : List (List Label)) {i j : Nat}
    (hi : i < N) (hj : j < N) :
    entryD
      (matMul ((List.range N).map (hgRow bcs))
        (transposeD 0 ((List.range N).map (hgRow bcs)))) i j 0 =
      dotL (hgRow bcs i) (hgRow bcs j) := by
  set H := (List.range N).map (hgRow bcs) with hHdef
  set C := (bcs.map (fun bc => (uniqueLabels bc).length)).sum with hCdef
  have hrect : IsRect H N C := hgH_rect N bcs
  by_cases hC : C = 0
  · have hrows : ∀ row ∈ H, row = [] := by
      intro row hrow
      have := hrect.2 row hrow
      rw [hC] at this
      exact List.eq_nil_of_length_eq_zero this
    have hHi : H.getD i [] = hgRow bcs i := hgH_getD bcs hi
    have hHj : H.getD j [] = hgRow bcs j := hgH_getD bcs hj
    have hri : hgRow bcs i = [] := by
      rw [← hHi]
      exact hrows _ (getD_mem_of_lt H [] (by rw [hrect.1]; omega))
    have hrj : hgRow bcs j = [] := by
      rw [← hHj]
      exact hrows _ (getD_mem_of_lt H [] (by rw [hrect.1]; omega))
    have hT : transposeD (0 : ℤ) H = [] := by
      unfold transposeD
      rw [colsOf_rect hrect (by omega), hC]
      simp
    rw [hT, hri, hrj]
    have hcolsnil : colsOf ([] : List (List ℤ)) = 0 := rfl
    unfold entryD matMul
    rw [getD_map_of_lt _ _ [] [] (by rw [hrect.1]; omega), hcolsnil]
    simp [dotL]
  · have hT : IsRect (transposeD (0 : ℤ) H) C N := by
      constructor
      · simp [transposeD, colsOf_rect hrect (by omega)]
      · intro row hrow
        simp only [transposeD, List.mem_map] at hrow
        obtain ⟨t, _, rfl⟩ := hrow
        simp [colD, hrect.1]
    have hcolsT : colsOf (transposeD (0 : ℤ) H) = N :=
      colsOf_rect hT (by omega)
    rw [matMul_entry H _ (by rw [hrect.1]; omega) (by rw [hcolsT]; omega)]
    rw [transposeD_col hrect hj]
    rw [hgH_getD bcs hi, hgH_getD bcs hj]

theorem dotL_hgRow_pair (bcs : List (List Label)) (i j : Nat) :
    dotL (hgRow bcs i) (hgRow bcs j) =
      (bcs.map (fun bc =>
        dotL (hgBlockRow bc (bc.getD i none)) (hgBlockRow bc (bc.getD j none)))).sum := by
  induction bcs with
  | nil => simp [hgRow, dotL]
  | cons bc rest ih =>
    unfold hgRow at *
    simp only [List.map_cons, List.flatten_cons, List.sum_cons]
    rw [dotL_append _ _ _ _ (by rw [hgBlockRow_length, hgBlockRow_length]), ih]

theorem hgBlockRow_self_dot (bc : List Label) {i : Nat} (hi : i < bc.length) :
    dotL (hgBlockRow bc (bc.getD i none)) (hgBlockRow bc (bc.getD i none)) =
      if bc.getD i none = none then 0 else 1 := by
  cases hx : bc.getD i none with
  | none =>
    simp only [hgBlockRow, if_pos rfl]
    rw [dotL_self_binary _ (by intro y hy; simp at hy; simp [hy])]
    simp
  | some v =>
    have hv : some v ∈ bc := by rw [← hx]; exact getD_mem_of_lt bc none hi
    have hmem : v ∈ uniqueLabels bc := (uniqueLabels_mem bc v).mpr hv
    have hlt : List.indexOf v (uniqueLabels bc) < (uniqueLabels bc).length :=
      List.indexOf_lt_length.mpr hmem
    simp only [hgBlockRow]
    rw [dotL_self_binary _ (by
      intro y hy
      exact hgBlockRow_binary bc (some v) y (by simpa [hgBlockRow] using hy))]
    rw [oneHot_sum, if_pos hlt]
    simp

theorem sum_ite_countP {β : Type} (l : List β) (q : β → Prop)
    [DecidablePred q] :
    (l.map (fun b => if q b then (1 : ℤ) else 0)).sum =
      (l.countP (fun b => decide (q b)) : ℤ) := by
  induction l with
  | nil => simp
  | cons b rest ih =>
    simp only [List.map_cons, List.sum_cons, List.countP_cons, ih]
    by_cases hq : q b
    · simp [hq]
      ring
    · simp [hq]

/-- C5 as stated is false: it asserts every diagonal entry of `S = H·Hᵀ`
equals `R`, the number of runs.  For the single run `[[0, NaN]]` (`R = 1`),
`H = [[1], [0]]` and `S[1][1] = 0 ≠ 1`, because object `1` received no label
in the run. -/
theorem claim_C5_counterexample :
    create_hypergraph [[some 0, none]] = some [[1], [0]] ∧
    entryD (matMul [[(1 : ℤ)], [0]] (transposeD 0 [[(1 : ℤ)], [0]])) 1 1 0 ≠
      (([[some 0, none]] : List (List Label)).length : ℤ) := by
  constructor
  · decide
  · decide

/-- C5 amended: `cspa` computes `S = H·Hᵀ`, whose entry `(i, j)` is the
number of hyperedges containing both objects `i` and `j`; `S` is symmetric,
and each diagonal entry `S[i][i]` equals the number of runs in which object
`i` received a non-missing label (equal to `R` when nothing is missing, but
smaller for objects with missing labels); `S` — its nonzero diagonal kept —
is converted to the CSR-like format and the partitioner's membership vector
is returned unchanged as the consensus labels. -/
theorem claim_C5_amended {N : Nat} (part : Partitioner)
    (bcs : List (List Label)) (ncls : Nat) (hne : bcs ≠ [])
    (hrect : ∀ bc ∈ bcs, bc.length = N) :
    ∃ H, create_hypergraph bcs = some H ∧
      cspa part bcs ncls =
        some (part ncls (to_pymetis_format (matMul H (transposeD 0 H))).1
          (to_pymetis_format (matMul H (transposeD 0 H))).2.1
          (some (to_pymetis_format (matMul H (transposeD 0 H))).2.2)) ∧
      (∀ i j, i < N → j < N →
        entryD (matMul H (transposeD 0 H)) i j 0 =
          (((H.getD i []).zip (H.getD j [])).countP
            (fun p => p.1 = 1 ∧ p.2 = 1) : ℤ) ∧
        entryD (matMul H (transposeD 0 H)) i j 0 =
          entryD (matMul H (transposeD 0 H)) j i 0) ∧
      ∀ i, i < N →
        entryD (matMul H (transposeD 0 H)) i i 0 =
          (bcs.countP (fun bc => bc.getD i none ≠ none) : ℤ) := by
  refine ⟨(List.range N).map (hgRow bcs), create_hypergraph_eq hne hrect,
    ?_, ?_, ?_⟩
  · unfold cspa
    rw [create_hypergraph_eq hne hrect]
    rfl
  · intro i j hi hj
    constructor
    · rw [cspaS_entry bcs hi hj, hgH_getD bcs hi, hgH_getD bcs hj]
      exact dotL_binary_count _ _ (hgRow_binary bcs i) (hgRow_binary bcs j)
    · rw [cspaS_entry bcs hi hj, cspaS_entry bcs hj hi]
      exact dotL_comm _ _
  · intro i hi
    rw [cspaS_entry bcs hi hi, dotL_hgRow_pair]
    have hcong : (bcs.map (fun bc =>
        dotL (hgBlockRow bc (bc.getD i none)) (hgBlockRow bc (bc.getD i none)))).sum =
        (bcs.map (fun bc => if bc.getD i none ≠ none then (1 : ℤ) else 0)).sum := by
      apply congrArg
      apply List.map_congr_left
      intro bc hbc
      rw [hgBlockRow_self_dot bc (by rw [hrect bc hbc]; omega)]
      by_cases hx : bc.getD i none = none <;> simp [hx]
    rw [hcong, sum_ite_countP]

/-- Witness for the amended C5 at `[[0, NaN]]` with a trivial partitioner. -/
theorem claim_C5_amended_witness :
    (([[some 0, none]] : List (List Label)) ≠ [] ∧
      ∀ bc ∈ ([[some 0, none]] : List (List Label)), bc.length = 2) ∧
    (∃ H, create_hypergraph [[some 0, none]] = some H ∧
      cspa (fun _ xadj _ _ => List.replicate (xadj.length - 1) 0)
          [[some 0, none]] 1 =
        some ((fun (_ : Nat) (xadj : List Nat) (_ : List Nat)
            (_ : Option (List ℤ)) => List.replicate (xadj.length - 1) 0) 1
          (to_pymetis_format (matMul H (transposeD 0 H))).1
          (to_pymetis_format (matMul H (transposeD 0 H))).2.1
          (some (to_pymetis_format (matMul H (transposeD 0 H))).2.2)) ∧
      (∀ i j, i < 2 → j < 2 →
        entryD (matMul H (transposeD 0 H)) i j 0 =
          (((H.getD i []).zip (H.getD j [])).countP
            (fun p => p.1 = 1 ∧ p.2 = 1) : ℤ) ∧
        entryD (matMul H (transposeD 0 H)) i j 0 =
          entryD (matMul H (transposeD 0 H)) j i 0) ∧
      ∀ i, i < 2 →
        entryD (matMul H (transposeD 0 H)) i i 0 =
          (([[some 0, none]] : List (List Label)).countP
            (fun bc => bc.getD i none ≠ none) : ℤ)) :=
  ⟨⟨by simp, by decide⟩,
    claim_C5_amended (fun _ xadj _ _ => List.replicate (xadj.length - 1) 0)
      [[some 0, none]] 1 (by simp) (by decide)⟩

/-! ## Closed forms for `to_pymetis_format` -/

theorem tpf_adjncy_aux :
    ∀ (adj : List (List ℤ)) (acc : List Nat × List Nat × List ℤ),
      (adj.foldl
        (fun acc row =>
          (acc.1 ++ [(acc.2.1 ++ (rowNonzero row).1).length],
            acc.2.1 ++ (rowNonzero row).1, acc.2.2 ++ (rowNonzero row).2))
        acc).2.1 =
      acc.2.1 ++ (adj.map (fun r => (rowNonzero r).1)).flatten := by
  intro adj
  induction adj with
  | nil => intro acc; simp
  | cons row rest ih =>
    intro acc
    simp only [List.foldl_cons, List.map_cons, List.flatten_cons]
    rw [ih]
    simp [List.append_assoc]

theorem tpf_ew_aux :
    ∀ (adj : List (List ℤ)) (acc : List Nat × List Nat × List ℤ),
      (adj.foldl
        (fun acc row =>
          (acc.1 ++ [(acc.2.1 ++ (rowNonzero row).1).length],
            acc.2.1 ++ (rowNonzero row).1, acc.2.2 ++ (rowNonzero row).2))
        acc).2.2 =
      acc.2.2 ++ (adj.map (fun r => (rowNonzero r).2)).flatten := by
  intro adj
  induction adj with
  | nil => intro acc; simp
  | cons row rest ih =>
    intro acc
    simp only [List.foldl_cons, List.map_cons, List.flatten_cons]
    rw [ih]
    simp [List.append_assoc]

theorem tpf_xadj_len_aux :
    ∀ (adj : List (List ℤ)) (acc : List Nat × List Nat × List ℤ),
      (adj.foldl
        (fun acc row =>
          (acc.1 ++ [(acc.2.1 ++ (rowNonzero row).1).length],
            acc.2.1 ++ (rowNonzero row).1, acc.2.2 ++ (rowNonzero row).2))
        acc).1.length =
      acc.1.length + adj.length := by
  intro adj
  induction adj with
  | nil => intro acc; simp
  | cons row rest ih =>
    intro acc
    simp only [List.foldl_cons]
    rw [ih]
    simp
    omega

theorem to_pymetis_format_adjncy (adj : List (List ℤ)) :
    (to_pymetis_format adj).2.1 =
      (adj.map (fun r => (rowNonzero r).1)).flatten := by
  unfold to_pymetis_format
  rw [tpf_adjncy_aux]
  simp

theorem to_pymetis_format_ew (adj : List (List ℤ)) :
    (to_pymetis_format adj).2.2 =
      (adj.map (fun r => (rowNonzero r).2)).flatten := by
  unfold to_pymetis_format
  rw [tpf_ew_aux]
  simp

theorem to_pymetis_format_xadj_length (adj : List (List ℤ)) :
    (to_pymetis_format adj).1.length = adj.length + 1 := by
  unfold to_pymetis_format
  rw [tpf_xadj_len_aux]
  simp
  omega

/-! ## MCLA diagonal facts -/

theorem zip_self_eq (u : List Bool) : ∀ p ∈ u.zip u, p.1 = p.2 := by
  induction u with
  | nil => simp
  | cons a u ih =>
    intro p hp
    rw [List.zip_cons_cons, List.mem_cons] at hp
    rcases hp with rfl | hp
    · rfl
    · exact ih p hp

theorem jaccardDist_self (u : List Bool) : jaccardDist u u = 0 := by
  have hdiff : (u.zip u).countP (fun p => p.1 != p.2) = 0 := by
    rw [List.countP_eq_zero]
    intro p hp
    simp [zip_self_eq u p hp]
  simp only [jaccardDist, hdiff]
  by_cases huni : (u.zip u).countP (fun p => p.1 || p.2) = 0 <;> simp [huni]

theorem truncQ_thousand : truncQ ((1 - 0) * 1000) = 1000 := by
  unfold truncQ
  norm_num

theorem mclaS_entry (cols : List (List Bool)) {i j : Nat}
    (hi : i < cols.length) (hj : j < cols.length) :
    entryD (mclaS cols) i j 0 =
      truncQ ((1 - jaccardDist (cols.getD i []) (cols.getD j [])) * 1000) := by
  unfold entryD mclaS
  rw [getD_map_of_lt _ _ [] [] hi]
  rw [getD_map_of_lt _ _ [] 0 hj]

/-- C10: in MCLA's integer weight matrix the self-similarity of every
hyperedge is exactly `1000` (the Jaccard distance of a column with itself is
`0`, so `(1 - 0) * 1000` truncates to `1000`), and the CSR-like conversion
keeps every nonzero entry of every row — in particular row `i` keeps the
pair `(i, 1000)`, so each hyperedge node reaches the partitioner with a
weight-1000 self-loop edge. -/
theorem claim_C10 (cols : List (List Bool)) :
    (∀ u : List Bool, jaccardDist u u = 0) ∧
    (∀ i, i < cols.length →
      entryD (mclaS cols) i i 0 = 1000 ∧
      ∃ q, q < (rowNonzero ((mclaS cols).getD i [])).1.length ∧
        (rowNonzero ((mclaS cols).getD i [])).1.getD q 0 = i ∧
        (rowNonzero ((mclaS cols).getD i [])).2.getD q 0 = 1000) ∧
    (to_pymetis_format (mclaS cols)).2.1 =
      ((mclaS cols).map (fun r => (rowNonzero r).1)).flatten ∧
    (to_pymetis_format (mclaS cols)).2.2 =
      ((mclaS cols).map (fun r => (rowNonzero r).2)).flatten := by
  refine ⟨jaccardDist_self, ?_, to_pymetis_format_adjncy _, to_pymetis_format_ew _⟩
  intro i hi
  have hdiag : entryD (mclaS cols) i i 0 = 1000 := by
    rw [mclaS_entry cols hi hi, jaccardDist_self, truncQ_thousand]
  refine ⟨hdiag, ?_⟩
  have hrowlen : ((mclaS cols).getD i []).length = cols.length := by
    unfold mclaS
    rw [getD_map_of_lt _ _ [] [] hi]
    simp
  set row := (mclaS cols).getD i [] with hrowdef
  have hri : row.getD i 0 = 1000 := hdiag
  have hfst : (rowNonzero row).1 =
      (List.range row.length).filter (fun j => row.getD j 0 ≠ 0) := rfl
  have hsnd : (rowNonzero row).2 =
      ((List.range row.length).filter (fun j => row.getD j 0 ≠ 0)).map
        (fun j => row.getD j 0) := rfl
  have himem : i ∈ (rowNonzero row).1 := by
    rw [hfst]
    simp only [List.mem_filter, List.mem_range]
    refine ⟨by rw [hrowlen]; omega, ?_⟩
    rw [hri]
    simp
  have hq : List.indexOf i (rowNonzero row).1 < (rowNonzero row).1.length :=
    List.indexOf_lt_length.mpr himem
  have hgot : (rowNonzero row).1.getD (List.indexOf i (rowNonzero row).1) 0 = i := by
    rw [getD_eq_getElem_of_lt _ _ hq]
    exact List.getElem_indexOf hq
  refine ⟨List.indexOf i (rowNonzero row).1, hq, hgot, ?_⟩
  rw [hsnd]
  rw [getD_map_of_lt _ _ 0 0 (by rw [← hfst]; exact hq)]
  rw [← hfst, hgot, hri]

/-- Witness for C10 at a concrete pair of hyperedge columns. -/
theorem claim_C10_witness :
    (∀ u : List Bool, jaccardDist u u = 0) ∧
    (∀ i, i < ([[true, false], [true, true]] : List (List Bool)).length →
      entryD (mclaS [[true, false], [true, true]]) i i 0 = 1000 ∧
      ∃ q, q < (rowNonzero ((mclaS [[true, false], [true, true]]).getD i [])).1.length ∧
        (rowNonzero ((mclaS [[true, false], [true, true]]).getD i [])).1.getD q 0 = i ∧
        (rowNonzero ((mclaS [[true, false], [true, true]]).getD i [])).2.getD q 0 = 1000) ∧
    (to_pymetis_format (mclaS [[true, false], [true, true]])).2.1 =
      ((mclaS [[true, false], [true, true]]).map (fun r => (rowNonzero r).1)).flatten ∧
    (to_pymetis_format (mclaS [[true, false], [true, true]])).2.2 =
      ((mclaS [[true, false], [true, true]]).map (fun r => (rowNonzero r).2)).flatten :=
  claim_C10 [[true, false], [true, true]]

/-! ## HBGF -/

/-- C7: `hbgf` builds the `(C+N) × (C+N)` bipartite adjacency whose
diagonal blocks are zero and whose off-diagonal blocks are `Aᵀ` (top right)
and `A` (bottom left), partitions all `C+N` nodes passing no edge weights
to the partitioner, and returns exactly the last `N` entries of the
membership vector, so (given that the partitioner returns one value per
node) the output has length `N` and the first `C` cluster-node assignments
never appear in it. -/
theorem claim_C7 {N : Nat} (part : Partitioner) (bcs : List (List Label))
    (ncls : Nat) (hne : bcs ≠ []) (hrect : ∀ bc ∈ bcs, bc.length = N)
    (hplen : ∀ k xadj adjncy ew,
      (part k xadj adjncy ew).length = xadj.length - 1) :
    ∃ A W, create_hypergraph bcs = some A ∧
      W = hstackM (zerosM (colsOf A) (colsOf A)) (transposeD 0 A) ++
        hstackM A (zerosM A.length A.length) ∧
      A.length = N ∧
      W.length = colsOf A + N ∧
      (∀ i j, i < colsOf A → j < colsOf A → entryD W i j 0 = 0) ∧
      (∀ i j, i < colsOf A → j < N →
        entryD W i (colsOf A + j) 0 = entryD A j i 0) ∧
      (∀ i j, i < N → j < colsOf A →
        entryD W (colsOf A + i) j 0 = entryD A i j 0) ∧
      (∀ i j, i < N → j < N →
        entryD W (colsOf A + i) (colsOf A + j) 0 = 0) ∧
      hbgf part bcs ncls =
        some ((part ncls (to_pymetis_format W).1 (to_pymetis_format W).2.1
          none).drop (colsOf A)) ∧
      ((part ncls (to_pymetis_format W).1 (to_pymetis_format W).2.1
        none).drop (colsOf A)).length = N ∧
      ∀ j, j < N →
        ((part ncls (to_pymetis_format W).1 (to_pymetis_format W).2.1
          none).drop (colsOf A)).getD j 0 =
        (part ncls (to_pymetis_format W).1 (to_pymetis_format W).2.1
          none).getD (colsOf A + j) 0 := by
  set A := (List.range N).map (hgRow bcs) with hAdef
  set C := colsOf A with hCdef
  have hArect : IsRect A N ((bcs.map (fun bc => (uniqueLabels bc).length)).sum) :=
    hgH_rect N bcs
  have hAlen : A.length = N := by simp [hAdef]
  have hTlen : (transposeD (0 : ℤ) A).length = C := by
    simp [transposeD]
  set W := hstackM (zerosM C C) (transposeD (0 : ℤ) A) ++
    hstackM A (zerosM A.length A.length) with hWdef
  have htoplen : (hstackM (zerosM (α := ℤ) C C) (transposeD 0 A)).length = C := by
    simp [hstackM, List.length_zipWith, zerosM, hTlen]
  have hbotlen : (hstackM A (zerosM (α := ℤ) A.length A.length)).length = N := by
    simp [hstackM, List.length_zipWith, zerosM, hAlen]
  have hWlen : W.length = C + N := by
    simp [hWdef, htoplen, hbotlen]
  have htoprow : ∀ i, i < C →
      W.getD i [] = List.replicate C 0 ++ colD A i 0 := by
    intro i hiC
    rw [hWdef, List.getD_append _ _ _ _ (by rw [htoplen]; omega)]
    unfold hstackM
    have hz : i < (List.zipWith (· ++ ·) (zerosM (α := ℤ) C C)
        (transposeD 0 A)).length := by
      simp [List.length_zipWith, zerosM, hTlen]; omega
    rw [getD_eq_getElem_of_lt _ _ hz, List.getElem_zipWith]
    simp [zerosM, transposeD]
  have hbotrow : ∀ i, i < N →
      W.getD (C + i) [] = A.getD i [] ++ List.replicate N 0 := by
    intro i hiN
    rw [hWdef, List.getD_append_right _ _ _ _ (by rw [htoplen]; omega)]
    rw [htoplen]
    have hsub : C + i - C = i := by omega
    rw [hsub]
    unfold hstackM
    have hz : i < (List.zipWith (· ++ ·) A
        (zerosM (α := ℤ) A.length A.length)).length := by
      simp [List.length_zipWith, zerosM, hAlen]; omega
    rw [getD_eq_getElem_of_lt _ _ hz, List.getElem_zipWith]
    rw [getD_eq_getElem_of_lt _ _ (by omega : i < A.length)]
    congr 1
    · simp [zerosM, hAlen]
  refine ⟨A, W, create_hypergraph_eq hne hrect, rfl, hAlen, hWlen,
    ?_, ?_, ?_, ?_, ?_, ?_, ?_⟩
  · intro i j hi hj
    unfold entryD
    rw [htoprow i hi, List.getD_append _ _ _ _ (by simp; omega)]
    rw [getD_eq_getElem_of_lt _ _ (by simp; omega : j < (List.replicate C (0 : ℤ)).length)]
    simp
  · intro i j hi hj
    unfold entryD
    rw [htoprow i hi, List.getD_append_right _ _ _ _ (by simp)]
    have hsub : C + j - (List.replicate C (0 : ℤ)).length = j := by simp
    rw [hsub]
    unfold colD
    rw [getD_map_of_lt _ _ [] 0 (by omega : j < A.length)]
  · intro i j hi hj
    unfold entryD
    rw [hbotrow i hi]
    have hrowlen : (A.getD i []).length = C := by
      rw [hArect.2 _ (getD_mem_of_lt A [] (by omega : i < A.length))]
      rw [hCdef, colsOf_rect hArect (by omega)]
    rw [List.getD_append _ _ _ _ (by rw [hrowlen]; omega)]
  · intro i j hi hj
    unfold entryD
    rw [hbotrow i hi]
    have hrowlen : (A.getD i []).length = C := by
      rw [hArect.2 _ (getD_mem_of_lt A [] (by omega : i < A.length))]
      rw [hCdef, colsOf_rect hArect (by omega)]
    rw [List.getD_append_right _ _ _ _ (by rw [hrowlen]; omega)]
    rw [hrowlen]
    have hsub : C + j - C = j := by omega
    rw [hsub]
    rw [getD_eq_getElem_of_lt _ _ (by simp; omega : j < (List.replicate N (0 : ℤ)).length)]
    simp
  · unfold hbgf
    rw [create_hypergraph_eq hne hrect]
    rfl
  · rw [List.length_drop, hplen, to_pymetis_format_xadj_length, hWlen]
    omega
  · intro j hj
    have hmlen : (part ncls (to_pymetis_format W).1 (to_pymetis_format W).2.1
        none).length = C + N := by
      rw [hplen, to_pymetis_format_xadj_length, hWlen]
      omega
    have hd : j < ((part ncls (to_pymetis_format W).1 (to_pymetis_format W).2.1
        none).drop C).length := by
      rw [List.length_drop, hmlen]; omega
    rw [getD_eq_getElem_of_lt _ _ hd, List.getElem_drop]
    rw [getD_eq_getElem_of_lt _ _ (by rw [hmlen]; omega)]

/-- A trivial partitioner used for witnesses: everything in part `0`. -/
def trivPart : Partitioner :=
  fun _ xadj _ _ => List.replicate (xadj.length - 1) 0

theorem trivPart_length :
    ∀ k xadj adjncy ew, (trivPart k xadj adjncy ew).length = xadj.length - 1 := by
  intro k xadj adjncy ew
  simp [trivPart]

/-- Witness for C7 at `[[0, 1]]` with the trivial partitioner. -/
theorem claim_C7_witness :
    (([[some 0, some 1]] : List (List Label)) ≠ [] ∧
      (∀ bc ∈ ([[some 0, some 1]] : List (List Label)), bc.length = 2) ∧
      ∀ k xadj adjncy ew,
        (trivPart k xadj adjncy ew).length = xadj.length - 1) ∧
    ∃ A W, create_hypergraph [[some 0, some 1]] = some A ∧
      W = hstackM (zerosM (colsOf A) (colsOf A)) (transposeD 0 A) ++
        hstackM A (zerosM A.length A.length) ∧
      A.length = 2 ∧
      W.length = colsOf A + 2 ∧
      (∀ i j, i < colsOf A → j < colsOf A → entryD W i j 0 = 0) ∧
      (∀ i j, i < colsOf A → j < 2 →
        entryD W i (colsOf A + j) 0 = entryD A j i 0) ∧
      (∀ i j, i < 2 → j < colsOf A →
        entryD W (colsOf A + i) j 0 = entryD A i j 0) ∧
      (∀ i j, i < 2 → j < 2 →
        entryD W (colsOf A + i) (colsOf A + j) 0 = 0) ∧
      hbgf trivPart [[some 0, some 1]] 2 =
        some ((trivPart 2 (to_pymetis_format W).1 (to_pymetis_format W).2.1
          none).drop (colsOf A)) ∧
      ((trivPart 2 (to_pymetis_format W).1 (to_pymetis_format W).2.1
        none).drop (colsOf A)).length = 2 ∧
      ∀ j, j < 2 →
        ((trivPart 2 (to_pymetis_format W).1 (to_pymetis_format W).2.1
          none).drop (colsOf A)).getD j 0 =
        (trivPart 2 (to_pymetis_format W).1 (to_pymetis_format W).2.1
          none).getD (colsOf A + j) 0 :=
  ⟨⟨by simp, by decide, trivPart_length⟩,
    claim_C7 trivPart [[some 0, some 1]] 2 (by simp) (by decide) trivPart_length⟩

/-! ## `np.max`, ties, and MCLA -/

theorem foldl_max_init_le [LinearOrder α] (l : List α) (a : α) :
    a ≤ l.foldl max a := by
  induction l generalizing a with
  | nil => exact le_refl a
  | cons b l ih => exact le_trans (le_max_left a b) (ih (max a b))

theorem le_foldl_max_of_mem [LinearOrder α] {x : α} (l : List α) (a : α)
    (hx : x ∈ l) : x ≤ l.foldl max a := by
  induction l generalizing a with
  | nil => simp at hx
  | cons b l ih =>
    rw [List.mem_cons] at hx
    rcases hx with rfl | hx
    · exact le_trans (le_max_right a x) (foldl_max_init_le l (max a x))
    · exact ih (max a b) hx

theorem foldl_max_mem [LinearOrder α] (l : List α) (a : α) :
    l.foldl max a = a ∨ l.foldl max a ∈ l := by
  induction l generalizing a with
  | nil => left; rfl
  | cons b l ih =>
    rcases ih (max a b) with h | h
    · simp only [List.foldl_cons, h]
      rcases max_cases a b with ⟨h1, _⟩ | ⟨h1, _⟩
      · left; exact h1
      · right; rw [h1]; simp
    · right
      simp only [List.foldl_cons]
      exact List.mem_cons_of_mem b h

theorem listMax_mem [LinearOrder α] (d : α) (v : List α) (hv : v ≠ []) :
    listMax d v ∈ v := by
  unfold listMax
  rcases foldl_max_mem v (v.headD d) with h | h
  · rw [h]
    cases v with
    | nil => exact absurd rfl hv
    | cons a l => simp
  · exact h

theorem le_listMax [LinearOrder α] (d : α) (v : List α) {x : α} (hx : x ∈ v) :
    x ≤ listMax d v :=
  le_foldl_max_of_mem v (v.headD d) hx

theorem tiedIdx_mem_iff (v : List ℤ) (j : Nat) :
    j ∈ tiedIdx v ↔ j < v.length ∧ v.getD j 0 = listMax 0 v := by
  unfold tiedIdx
  simp [List.mem_filter]

theorem tiedIdx_nonempty (v : List ℤ) (hv : v ≠ []) : tiedIdx v ≠ [] := by
  obtain ⟨j, hj, hget⟩ := List.mem_iff_getElem.mp (listMax_mem 0 v hv)
  apply List.ne_nil_of_mem (a := j)
  rw [tiedIdx_mem_iff]
  exact ⟨hj, by rw [getD_eq_getElem_of_lt _ _ hj, hget]⟩

theorem tiedIdx_iff_maximal (v : List ℤ) (hv : v ≠ []) (j : Nat) :
    j ∈ tiedIdx v ↔
      j < v.length ∧ ∀ c, c < v.length → v.getD c 0 ≤ v.getD j 0 := by
  rw [tiedIdx_mem_iff]
  constructor
  · rintro ⟨hj, hmax⟩
    refine ⟨hj, fun c hc => ?_⟩
    rw [hmax]
    exact le_listMax 0 v (getD_mem_of_lt v 0 hc)
  · rintro ⟨hj, hall⟩
    refine ⟨hj, le_antisymm (le_listMax 0 v (getD_mem_of_lt v 0 hj)) ?_⟩
    obtain ⟨c, hc, hgetc⟩ := List.mem_iff_getElem.mp (listMax_mem 0 v hv)
    rw [← hgetc, ← getD_eq_getElem_of_lt v 0 hc]
    exact hall c hc

theorem truncQ_eq_floor {q : ℚ} (hq : 0 ≤ q) : truncQ q = ⌊q⌋ := by
  unfold truncQ
  rw [Rat.floor_def]
  exact Int.tdiv_eq_ediv (Rat.num_nonneg.mpr hq) (by positivity)

theorem jaccardDist_nonneg (u v : List Bool) : 0 ≤ jaccardDist u v := by
  simp only [jaccardDist]
  by_cases h : (u.zip v).countP (fun p => p.1 || p.2) = 0 <;> simp [h]
  positivity

theorem jaccardDist_le_one (u v : List Bool) : jaccardDist u v ≤ 1 := by
  simp only [jaccardDist]
  by_cases h : (u.zip v).countP (fun p => p.1 || p.2) = 0 <;> simp [h]
  rw [div_le_one (by positivity)]
  have hmono : (u.zip v).countP (fun p => p.1 != p.2) ≤
      (u.zip v).countP (fun p => p.1 || p.2) := by
    apply List.countP_mono_left
    intro p _ hp
    cases hp1 : p.1 <;> cases hp2 : p.2 <;> simp_all
  exact_mod_cast hmono

theorem mclaMetaRow_length (membership : List Nat) (hrow : List Bool)
    (ncls : Nat) : (mclaMetaRow membership hrow ncls).length = ncls := by
  simp [mclaMetaRow]

theorem mclaMetaRow_getD (membership : List Nat) (hrow : List Bool)
    {ncls c : Nat} (hc : c < ncls) :
    (mclaMetaRow membership hrow ncls).getD c 0 =
      ((membership.zip hrow).countP (fun p => p.1 = c ∧ p.2) : ℤ) := by
  unfold mclaMetaRow
  rw [getD_map_of_lt _ _ 0 0 (by simpa using hc)]
  have hr : (List.range ncls).getD c 0 = c := by
    rw [getD_eq_getElem_of_lt _ _ (by simpa using hc)]
    exact List.getElem_range _ _
  rw [hr, sum_ite_countP]

/-- C6: `mcla` builds its hyperedge-pair edge weights as
`(1 - jaccard distance) * 1000` truncated to integer (equivalently, the
floor, since the scaled similarity is non-negative), and the label returned
for each object is a meta-cluster index whose accumulated count of
containing hyperedges is maximal; on ties the label is the random chooser's
pick from exactly the list of tied indices (the chooser models
`np.random.choice`, which draws uniformly). -/
theorem claim_C6 {N : Nat} (part : Partitioner) (choice : Chooser)
    (bcs : List (List Label)) (ncls : Nat) (hne : bcs ≠ [])
    (hrect : ∀ bc ∈ bcs, bc.length = N) (hk : 0 < ncls)
    (hchoice : ∀ l : List Nat, l ≠ [] → choice l ∈ l) :
    ∃ (H : List (List ℤ)) (Hb : List (List Bool)) (membership : List Nat)
      (meta : List (List ℤ)) (labels : List Nat),
      create_hypergraph bcs = some H ∧
      Hb = H.map (fun row => row.map (fun x => decide (x ≠ 0))) ∧
      membership = part ncls
        (to_pymetis_format (mclaS (transposeD false Hb))).1
        (to_pymetis_format (mclaS (transposeD false Hb))).2.1
        (some (to_pymetis_format (mclaS (transposeD false Hb))).2.2) ∧
      meta = Hb.map (fun hrow => mclaMetaRow membership hrow ncls) ∧
      labels = meta.map (fun v => choice (tiedIdx v)) ∧
      mcla part choice bcs ncls = some labels ∧
      (∀ i j, i < (transposeD false Hb).length →
        j < (transposeD false Hb).length →
        entryD (mclaS (transposeD false Hb)) i j 0 =
          ⌊(1 - jaccardDist ((transposeD false Hb).getD i [])
            ((transposeD false Hb).getD j [])) * 1000⌋) ∧
      labels.length = N ∧
      ∀ i, i < N →
        labels.getD i 0 = choice (tiedIdx (meta.getD i [])) ∧
        tiedIdx (meta.getD i []) ≠ [] ∧
        (∀ j, j ∈ tiedIdx (meta.getD i []) ↔
          j < ncls ∧ ∀ c, c < ncls →
            (meta.getD i []).getD c 0 ≤ (meta.getD i []).getD j 0) ∧
        labels.getD i 0 < ncls ∧
        (∀ c, c < ncls →
          (meta.getD i []).getD c 0 ≤
            (meta.getD i []).getD (labels.getD i 0) 0) ∧
        ∀ c, c < ncls →
          (meta.getD i []).getD c 0 =
            ((membership.zip (Hb.getD i [])).countP
              (fun p => p.1 = c ∧ p.2) : ℤ) := by
  set H := (List.range N).map (hgRow bcs) with hHdef
  set Hb := H.map (fun row => row.map (fun x : ℤ => decide (x ≠ 0))) with hHbdef
  set membership := part ncls
    (to_pymetis_format (mclaS (transposeD false Hb))).1
    (to_pymetis_format (mclaS (transposeD false Hb))).2.1
    (some (to_pymetis_format (mclaS (transposeD false Hb))).2.2) with hmemdef
  set meta := Hb.map (fun hrow => mclaMetaRow membership hrow ncls) with hmetadef
  refine ⟨H, Hb, membership, meta, meta.map (fun v => choice (tiedIdx v)),
    create_hypergraph_eq hne hrect, rfl, rfl, rfl, rfl, ?_, ?_, ?_, ?_⟩
  · unfold mcla
    rw [create_hypergraph_eq hne hrect]
    rfl
  · intro i j hi hj
    rw [mclaS_entry _ hi hj]
    apply truncQ_eq_floor
    have hd := jaccardDist_le_one ((transposeD false Hb).getD i [])
      ((transposeD false Hb).getD j [])
    nlinarith
  · simp [hmetadef, hHbdef, hHdef]
  · intro i hi
    have hHblen : Hb.length = N := by simp [hHbdef, hHdef]
    have hmetalen : meta.length = N := by simp [hmetadef, hHblen]
    have hmetai : meta.getD i [] =
        mclaMetaRow membership (Hb.getD i []) ncls := by
      rw [hmetadef]
      exact getD_map_of_lt _ _ [] [] (by omega : i < Hb.length)
    have hvlen : (meta.getD i []).length = ncls := by
      rw [hmetai, mclaMetaRow_length]
    have hvne : meta.getD i [] ≠ [] := by
      intro hcon
      rw [hcon] at hvlen
      simp at hvlen
      omega
    have htne : tiedIdx (meta.getD i []) ≠ [] := tiedIdx_nonempty _ hvne
    have hlab : (meta.map (fun v => choice (tiedIdx v))).getD i 0 =
        choice (tiedIdx (meta.getD i [])) :=
      getD_map_of_lt _ _ [] 0 (by omega : i < meta.length)
    have hiff : ∀ j, j ∈ tiedIdx (meta.getD i []) ↔
        j < ncls ∧ ∀ c, c < ncls →
          (meta.getD i []).getD c 0 ≤ (meta.getD i []).getD j 0 := by
      intro j
      rw [tiedIdx_iff_maximal _ hvne, hvlen]
    have hchosen : choice (tiedIdx (meta.getD i [])) ∈ tiedIdx (meta.getD i []) :=
      hchoice _ htne
    have hcmem := (hiff _).mp hchosen
    refine ⟨hlab, htne, hiff, ?_, ?_, ?_⟩
    · rw [hlab]
      exact hcmem.1
    · intro c hc
      rw [hlab]
      exact hcmem.2 c hc
    · intro c hc
      rw [hmetai]
      exact mclaMetaRow_getD membership (Hb.getD i []) hc

/-- A deterministic chooser used for witnesses: take the first candidate. -/
def trivChoice : Chooser := fun l => l.headD 0

theorem trivChoice_mem : ∀ l : List Nat, l ≠ [] → trivChoice l ∈ l := by
  intro l hl
  cases l with
  | nil => exact absurd rfl hl
  | cons a rest => simp [trivChoice]

/-- Witness for C6 at `[[0, 0, 1], [1, 1, 0]]` with the trivial partitioner
and chooser. -/
theorem claim_C6_witness :
    (([[some 0, some 0, some 1], [some 1, some 1, some 0]] : List (List Label)) ≠ [] ∧
      (∀ bc ∈ ([[some 0, some 0, some 1], [some 1, some 1, some 0]] : List (List Label)),
        bc.length = 3) ∧
      0 < 2 ∧
      ∀ l : List Nat, l ≠ [] → trivChoice l ∈ l) ∧
    ∃ (H : List (List ℤ)) (Hb : List (List Bool)) (membership : List Nat)
      (meta : List (List ℤ)) (labels : List Nat),
      create_hypergraph [[some 0, some 0, some 1], [some 1, some 1, some 0]] = some H ∧
      Hb = H.map (fun row => row.map (fun x => decide (x ≠ 0))) ∧
      membership = trivPart 2
        (to_pymetis_format (mclaS (transposeD false Hb))).1
        (to_pymetis_format (mclaS (transposeD false Hb))).2.1
        (some (to_pymetis_format (mclaS (transposeD false Hb))).2.2) ∧
      meta = Hb.map (fun hrow => mclaMetaRow membership hrow 2) ∧
      labels = meta.map (fun v => trivChoice (tiedIdx v)) ∧
      mcla trivPart trivChoice [[some 0, some 0, some 1], [some 1, some 1, some 0]] 2 =
        some labels ∧
      (∀ i j, i < (transposeD false Hb).length →
        j < (transposeD false Hb).length →
        entryD (mclaS (transposeD false Hb)) i j 0 =
          ⌊(1 - jaccardDist ((transposeD false Hb).getD i [])
            ((transposeD false Hb).getD j [])) * 1000⌋) ∧
      labels.length = 3 ∧
      ∀ i, i < 3 →
        labels.getD i 0 = trivChoice (tiedIdx (meta.getD i [])) ∧
        tiedIdx (meta.getD i []) ≠ [] ∧
        (∀ j, j ∈ tiedIdx (meta.getD i []) ↔
          j < 2 ∧ ∀ c, c < 2 →
            (meta.getD i []).getD c 0 ≤ (meta.getD i []).getD j 0) ∧
        labels.getD i 0 < 2 ∧
        (∀ c, c < 2 →
          (meta.getD i []).getD c 0 ≤
            (meta.getD i []).getD (labels.getD i 0) 0) ∧
        ∀ c, c < 2 →
          (meta.getD i []).getD c 0 =
            ((membership.zip (Hb.getD i [])).countP
              (fun p => p.1 = c ∧ p.2) : ℤ) :=
  ⟨⟨by simp, by decide, by decide, trivChoice_mem⟩,
    claim_C6 trivPart trivChoice
      [[some 0, some 0, some 1], [some 1, some 1, some 0]] 2
      (by simp) (by decide) (by decide) trivChoice_mem⟩

/-! ## Shape preservation through the NMF iteration -/

theorem matMul_rect' [Add α] [Mul α] [Zero α] {A B : List (List α)}
    {r c d : Nat} (hA : IsRect A r c) (hB : IsRect B c d) (hc : 0 < c) :
    IsRect (matMul A B) r d := by
  refine ⟨by rw [matMul_length, hA.1], fun row hrow => ?_⟩
  rw [(matMul_rect A B).2 row hrow, colsOf_rect hB hc]

theorem transposeD_rect {m : List (List α)} {r c : Nat} (d : α)
    (hm : IsRect m r c) (hr : 0 < r) : IsRect (transposeD d m) c r := by
  constructor
  · simp [transposeD, colsOf_rect hm hr]
  · intro row hrow
    simp only [transposeD, List.mem_map] at hrow
    obtain ⟨j, _, rfl⟩ := hrow
    simp [colD, hm.1]

theorem elemMap_rect {m : List (List α)} {r c : Nat} (f : α → β)
    (hm : IsRect m r c) : IsRect (elemMap f m) r c := by
  constructor
  · simp [elemMap, hm.1]
  · intro row hrow
    simp only [elemMap, List.mem_map] at hrow
    obtain ⟨row0, hrow0, rfl⟩ := hrow
    simp [hm.2 _ hrow0]

theorem elemAddC_rect [Add α] {m : List (List α)} {r c : Nat} (x : α)
    (hm : IsRect m r c) : IsRect (elemAddC x m) r c := by
  constructor
  · simp [elemAddC, hm.1]
  · intro row hrow
    simp only [elemAddC, List.mem_map] at hrow
    obtain ⟨row0, hrow0, rfl⟩ := hrow
    simp [hm.2 _ hrow0]

theorem initQ_rect (rnd : Nat → Nat → ℚ) (n k : Nat) :
    IsRect (initQ rnd n k) n k := by
  constructor
  · simp [initQ]
  · intro row hrow
    simp only [initQ, List.mem_map] at hrow
    obtain ⟨i, _, rfl⟩ := hrow
    simp

theorem diagM_rect [Zero α] (v : List α) :
    IsRect (diagM v) v.length v.length := by
  constructor
  · simp [diagM]
  · intro row hrow
    simp only [diagM, List.mem_map] at hrow
    obtain ⟨i, _, rfl⟩ := hrow
    simp

theorem onmfStep_rect (sqrtF : ℚ → ℚ) {W Q S : List (List ℚ)} {N k : Nat}
    (hN : 0 < N) (hk : 0 < k) (hW : IsRect W N N) (hQ : IsRect Q N k)
    (hS : IsRect S k k) :
    IsRect (onmfStep sqrtF W (Q, S)).1 N k ∧
      IsRect (onmfStep sqrtF W (Q, S)).2 k k := by
  have hQS : IsRect (matMul Q S) N k := matMul_rect' hQ hS hk
  have hWQS : IsRect (matMul W (matMul Q S)) N k := matMul_rect' hW hQS hN
  have hQt : IsRect (transposeD (0 : ℚ) Q) k N := transposeD_rect 0 hQ hN
  have hT1 : IsRect (matMul (transposeD 0 Q) (matMul W (matMul Q S))) k k :=
    matMul_rect' hQt hWQS hN
  have hT2 : IsRect (matMul Q (matMul (transposeD 0 Q)
      (matMul W (matMul Q S)))) N k := matMul_rect' hQ hT1 hk
  have hQn : IsRect (onmfStep sqrtF W (Q, S)).1 N k := by
    exact isRect_elemWise _ hQ (elemMap_rect _
      (isRect_elemWise _ hWQS (elemAddC_rect _ hT2)))
  refine ⟨hQn, ?_⟩
  have hQnt : IsRect (transposeD (0 : ℚ) (onmfStep sqrtF W (Q, S)).1) k N :=
    transposeD_rect 0 hQn hN
  have hQTQ : IsRect (matMul (transposeD 0 (onmfStep sqrtF W (Q, S)).1)
      (onmfStep sqrtF W (Q, S)).1) k k := matMul_rect' hQnt hQn hN
  have hWQn : IsRect (matMul W (onmfStep sqrtF W (Q, S)).1) N k :=
    matMul_rect' hW hQn hN
  have hT3 : IsRect (matMul (transposeD 0 (onmfStep sqrtF W (Q, S)).1)
      (matMul W (onmfStep sqrtF W (Q, S)).1)) k k := matMul_rect' hQnt hWQn hN
  have hSQTQ : IsRect (matMul S (matMul (transposeD 0
      (onmfStep sqrtF W (Q, S)).1) (onmfStep sqrtF W (Q, S)).1)) k k :=
    matMul_rect' hS hQTQ hk
  have hT4 : IsRect (matMul (matMul (transposeD 0 (onmfStep sqrtF W (Q, S)).1)
      (onmfStep sqrtF W (Q, S)).1) (matMul S (matMul (transposeD 0
      (onmfStep sqrtF W (Q, S)).1) (onmfStep sqrtF W (Q, S)).1))) k k :=
    matMul_rect' hQTQ hSQTQ hk
  exact isRect_elemWise _ hS (elemMap_rect _
    (isRect_elemWise _ hT3 (elemAddC_rect _ hT4)))

theorem onmf_foldl_rect (sqrtF : ℚ → ℚ) {W : List (List ℚ)} {N k : Nat}
    (hN : 0 < N) (hk : 0 < k) (hW : IsRect W N N) :
    ∀ (l : List Nat) (p : List (List ℚ) × List (List ℚ)),
      IsRect p.1 N k → IsRect p.2 k k →
      IsRect (l.foldl (fun p _ => onmfStep sqrtF W p) p).1 N k ∧
        IsRect (l.foldl (fun p _ => onmfStep sqrtF W p) p).2 k k := by
  intro l
  induction l with
  | nil => intro p h1 h2; exact ⟨h1, h2⟩
  | cons a rest ih =>
    intro p h1 h2
    simp only [List.foldl_cons]
    have hstep := onmfStep_rect sqrtF hN hk hW h1 h2
    exact ih (onmfStep sqrtF W (p.1, p.2)) hstep.1 hstep.2

theorem foldl_onmf_nil (sqrtF : ℚ → ℚ) (W : List (List ℚ)) :
    ∀ (l : List Nat) (p : List (List ℚ) × List (List ℚ)), p.1 = [] →
      (l.foldl (fun p _ => onmfStep sqrtF W p) p).1 = [] := by
  intro l
  induction l with
  | nil => intro p h; exact h
  | cons a rest ih =>
    intro p h
    simp only [List.foldl_cons]
    apply ih
    simp [onmfStep, elemWise, h]

/-! ## `np.argmax` facts -/

theorem argmaxFirst_lt (v : List ℚ) (hv : v ≠ []) :
    argmaxFirst v < v.length :=
  List.indexOf_lt_length.mpr (listMax_mem 0 v hv)

theorem argmaxFirst_getD (v : List ℚ) (hv : v ≠ []) :
    v.getD (argmaxFirst v) 0 = listMax 0 v := by
  unfold argmaxFirst
  rw [getD_eq_getElem_of_lt _ _ (List.indexOf_lt_length.mpr (listMax_mem 0 v hv))]
  exact List.getElem_indexOf _

theorem argmaxFirst_is_max (v : List ℚ) (hv : v ≠ []) :
    ∀ j, j < v.length → v.getD j 0 ≤ v.getD (argmaxFirst v) 0 := by
  intro j hj
  rw [argmaxFirst_getD v hv]
  exact le_listMax 0 v (getD_mem_of_lt v 0 hj)

theorem getElem_ne_of_lt_indexOf {α : Type} [DecidableEq α] {l : List α}
    {a : α} {j : Nat} (hj : j < List.indexOf a l) (hjl : j < l.length) :
    l[j] ≠ a := by
  induction l generalizing j with
  | nil => simp at hjl
  | cons b t ih =>
    rw [List.indexOf_cons] at hj
    by_cases hba : b = a
    · simp [hba] at hj
    · simp only [beq_eq_false_iff_ne, ne_eq, hba, not_false_eq_true,
        beq_iff_eq, if_false, Bool.cond_eq_ite, if_neg hba] at hj
      cases j with
      | zero => simpa using hba
      | succ j =>
        have hjt : j < List.indexOf a t := by omega
        simpa using ih hjt (by simpa using hjl)

theorem argmaxFirst_is_first (v : List ℚ) (hv : v ≠ []) :
    ∀ j, j < argmaxFirst v → v.getD j 0 < v.getD (argmaxFirst v) 0 := by
  intro j hj
  have hjl : j < v.length := lt_trans hj (argmaxFirst_lt v hv)
  have hne : v[j] ≠ listMax 0 v := getElem_ne_of_lt_indexOf hj hjl
  have hle : v.getD j 0 ≤ v.getD (argmaxFirst v) 0 :=
    argmaxFirst_is_max v hv j hjl
  rw [argmaxFirst_getD v hv] at *
  rw [getD_eq_getElem_of_lt _ _ hjl] at *
  exact lt_of_le_of_ne hle hne

/-! ## Validity of every solver's output -/

theorem nmf_final_rect {N : Nat} (sqrtF : ℚ → ℚ) (rnd : Nat → Nat → ℚ)
    (rndD : Nat → ℚ) (bcs : List (List Label)) (ncls maxiter : Nat)
    (hne : bcs ≠ []) (hrect : ∀ bc ∈ bcs, bc.length = N) (hk : 0 < ncls)
    (hN : 0 < N) :
    IsRect (matMul
      (orthogonal_nmf_algorithm sqrtF rnd rndD
        (create_connectivity_matrix bcs) ncls maxiter).1
      (elemMap sqrtF (orthogonal_nmf_algorithm sqrtF rnd rndD
        (create_connectivity_matrix bcs) ncls maxiter).2)) N ncls := by
  have hM : IsRect (create_connectivity_matrix bcs) N N :=
    create_connectivity_matrix_rect hne hrect
  have hMlen : (create_connectivity_matrix bcs).length = N := hM.1
  have hinitQ : IsRect (initQ rnd (create_connectivity_matrix bcs).length
      ncls) N ncls := by
    rw [hMlen]
    exact initQ_rect rnd N ncls
  have hinitS : IsRect (diagM ((List.range ncls).map rndD)) ncls ncls := by
    have := diagM_rect ((List.range ncls).map rndD)
    simpa using this
  have hp := onmf_foldl_rect sqrtF hN hk hM (List.range maxiter)
    (initQ rnd (create_connectivity_matrix bcs).length ncls,
      diagM ((List.range ncls).map rndD)) hinitQ hinitS
  simp only [orthogonal_nmf_algorithm]
  exact matMul_rect' hp.1 (elemMap_rect sqrtF hp.2) hk

theorem nmfWith_eq_map (sqrtF : ℚ → ℚ) (rnd : Nat → Nat → ℚ)
    (rndD : Nat → ℚ) (bcs : List (List Label)) (ncls maxiter : Nat) :
    nmfWith sqrtF rnd rndD bcs ncls maxiter =
      (matMul
        (orthogonal_nmf_algorithm sqrtF rnd rndD
          (create_connectivity_matrix bcs) ncls maxiter).1
        (elemMap sqrtF (orthogonal_nmf_algorithm sqrtF rnd rndD
          (create_connectivity_matrix bcs) ncls maxiter).2)).map argmaxFirst :=
  rfl

theorem nmfWith_valid {N : Nat} (sqrtF : ℚ → ℚ) (rnd : Nat → Nat → ℚ)
    (rndD : Nat → ℚ) (bcs : List (List Label)) (ncls maxiter : Nat)
    (hne : bcs ≠ []) (hrect : ∀ bc ∈ bcs, bc.length = N) (hk : 0 < ncls) :
    (nmfWith sqrtF rnd rndD bcs ncls maxiter).length = N ∧
    ∀ v ∈ nmfWith sqrtF rnd rndD bcs ncls maxiter, v < ncls := by
  have hM : IsRect (create_connectivity_matrix bcs) N N :=
    create_connectivity_matrix_rect hne hrect
  have hMlen : (create_connectivity_matrix bcs).length = N := hM.1
  by_cases hN : 0 < N
  · have hfin := nmf_final_rect sqrtF rnd rndD bcs ncls maxiter hne hrect hk hN
    rw [nmfWith_eq_map]
    constructor
    · simp only [List.length_map]
      exact hfin.1
    · intro v hv
      simp only [List.mem_map] at hv
      obtain ⟨row, hrow, rfl⟩ := hv
      have hrl : row.length = ncls := hfin.2 row hrow
      have hrne : row ≠ [] := by
        intro hcon
        rw [hcon] at hrl
        simp at hrl
        omega
      have := argmaxFirst_lt row hrne
      omega
  · have hN0 : N = 0 := by omega
    have hQnil : (initQ rnd (create_connectivity_matrix bcs).length ncls) = [] := by
      rw [hMlen, hN0]
      simp [initQ]
    simp only [nmfWith, orthogonal_nmf_algorithm]
    rw [foldl_onmf_nil sqrtF (create_connectivity_matrix bcs)
      (List.range maxiter)
      (initQ rnd (create_connectivity_matrix bcs).length ncls,
        diagM ((List.range ncls).map rndD)) hQnil]
    simp [matMul, hN0]

theorem cspa_valid {N : Nat} (part : Partitioner) (bcs : List (List Label))
    (ncls : Nat) (hne : bcs ≠ []) (hrect : ∀ bc ∈ bcs, bc.length = N)
    (hk : 0 < ncls)
    (hpart : ∀ k xadj adjncy ew, 0 < k →
      (part k xadj adjncy ew).length = xadj.length - 1 ∧
      ∀ v ∈ part k xadj adjncy ew, v < k) :
    ∃ l, cspa part bcs ncls = some l ∧ l.length = N ∧ ∀ v ∈ l, v < ncls := by
  unfold cspa
  rw [create_hypergraph_eq hne hrect]
  refine ⟨_, rfl, ?_, (hpart _ _ _ _ hk).2⟩
  rw [(hpart _ _ _ _ hk).1, to_pymetis_format_xadj_length, matMul_length]
  simp

theorem choice_tied_lt (choice : Chooser)
    (hchoice : ∀ l : List Nat, l ≠ [] → choice l ∈ l) (ms : List Nat)
    (hb : List Bool) {k : Nat} (hk : 0 < k) :
    choice (tiedIdx (mclaMetaRow ms hb k)) < k := by
  have hpos : 0 < (mclaMetaRow ms hb k).length := by
    rw [mclaMetaRow_length]
    omega
  have hmem := hchoice _ (tiedIdx_nonempty _ (List.length_pos.mp hpos))
  rw [tiedIdx_mem_iff, mclaMetaRow_length] at hmem
  exact hmem.1

theorem mcla_valid {N : Nat} (part : Partitioner) (choice : Chooser)
    (bcs : List (List Label)) (ncls : Nat) (hne : bcs ≠ [])
    (hrect : ∀ bc ∈ bcs, bc.length = N) (hk : 0 < ncls)
    (hchoice : ∀ l : List Nat, l ≠ [] → choice l ∈ l) :
    ∃ l, mcla part choice bcs ncls = some l ∧ l.length = N ∧
      ∀ v ∈ l, v < ncls := by
  unfold mcla
  rw [create_hypergraph_eq hne hrect]
  refine ⟨_, rfl, by simp, ?_⟩
  intro v hv
  rw [List.mem_map] at hv
  obtain ⟨row, hrow, rfl⟩ := hv
  rw [List.mem_map] at hrow
  obtain ⟨hb, hhb, rfl⟩ := hrow
  exact choice_tied_lt choice hchoice _ hb hk

theorem hbgf_valid {N : Nat} (part : Partitioner) (bcs : List (List Label))
    (ncls : Nat) (hne : bcs ≠ []) (hrect : ∀ bc ∈ bcs, bc.length = N)
    (hk : 0 < ncls)
    (hpart : ∀ k xadj adjncy ew, 0 < k →
      (part k xadj adjncy ew).length = xadj.length - 1 ∧
      ∀ v ∈ part k xadj adjncy ew, v < k) :
    ∃ l, hbgf part bcs ncls = some l ∧ l.length = N ∧ ∀ v ∈ l, v < ncls := by
  unfold hbgf
  rw [create_hypergraph_eq hne hrect]
  refine ⟨_, rfl, ?_, ?_⟩
  · set A := (List.range N).map (hgRow bcs) with hAdef
    have hTlen : (transposeD (0 : ℤ) A).length = colsOf A := by
      simp [transposeD]
    have hWlen : (hstackM (zerosM (colsOf A) (colsOf A)) (transposeD 0 A) ++
        hstackM A (zerosM A.length A.length)).length = colsOf A + N := by
      simp [hstackM, List.length_zipWith, zerosM, hTlen, hAdef]
    rw [List.length_drop, (hpart _ _ _ _ hk).1,
      to_pymetis_format_xadj_length, hWlen]
    omega
  · intro v hv
    exact (hpart _ _ _ _ hk).2 v (List.mem_of_mem_drop hv)

/-- C1: for every valid base-clustering matrix with `R ≥ 1` runs and every
positive class count, each of `cspa`, `mcla`, `hbgf`, `nmf` and
`cluster_ensembles` returns a label vector of length exactly `N` all of
whose entries lie in `[0, ncls)`, under the hypotheses that the external
partitioner returns one value in `[0, k)` per node and the random chooser
returns an element of its candidate list. -/
theorem claim_C1 {N : Nat} (part : Partitioner) (choice : Chooser)
    (sqrtF : ℚ → ℚ) (rnd : Nat → Nat → ℚ) (rndD : Nat → ℚ)
    (bcs : List (List Label)) (ncls : Nat)
    (hne : bcs ≠ []) (hrect : ∀ bc ∈ bcs, bc.length = N) (hk : 0 < ncls)
    (hpart : ∀ k xadj adjncy ew, 0 < k →
      (part k xadj adjncy ew).length = xadj.length - 1 ∧
      ∀ v ∈ part k xadj adjncy ew, v < k)
    (hchoice : ∀ l : List Nat, l ≠ [] → choice l ∈ l) :
    (∃ l, cspa part bcs ncls = some l ∧ l.length = N ∧ ∀ v ∈ l, v < ncls) ∧
    (∃ l, mcla part choice bcs ncls = some l ∧ l.length = N ∧
      ∀ v ∈ l, v < ncls) ∧
    (∃ l, hbgf part bcs ncls = some l ∧ l.length = N ∧ ∀ v ∈ l, v < ncls) ∧
    ((nmf sqrtF rnd rndD bcs ncls).length = N ∧
      ∀ v ∈ nmf sqrtF rnd rndD bcs ncls, v < ncls) ∧
    ∀ solver ∈ ["cspa", "mcla", "hbgf", "nmf"],
      ∃ l, cluster_ensembles part choice sqrtF rnd rndD bcs
          (some (ncls : ℤ)) solver = Except.ok (some l) ∧
        l.length = N ∧ ∀ v ∈ l, v < ncls := by
  have hcspa := cspa_valid part bcs ncls hne hrect hk hpart
  have hmcla := mcla_valid part choice bcs ncls hne hrect hk hchoice
  have hhbgf := hbgf_valid part bcs ncls hne hrect hk hpart
  have hnmf := nmfWith_valid sqrtF rnd rndD bcs ncls 500 hne hrect hk
  have hle : ¬((ncls : ℤ) ≤ 0) := by
    simp only [not_le]
    exact_mod_cast hk
  have htn : ((ncls : ℤ)).toNat = ncls := Int.toNat_natCast ncls
  refine ⟨hcspa, hmcla, hhbgf, hnmf, ?_⟩
  intro solver hsolver
  simp only [List.mem_cons, List.not_mem_nil, or_false] at hsolver
  rcases hsolver with rfl | rfl | rfl | rfl
  · obtain ⟨l, hl, hlen, hmem⟩ := hcspa
    refine ⟨l, ?_, hlen, hmem⟩
    simp only [cluster_ensembles, Option.getD_some]
    rw [if_neg hle]
    simp [htn, hl]
  · obtain ⟨l, hl, hlen, hmem⟩ := hmcla
    refine ⟨l, ?_, hlen, hmem⟩
    simp only [cluster_ensembles, Option.getD_some]
    rw [if_neg hle]
    simp [htn, hl]
  · obtain ⟨l, hl, hlen, hmem⟩ := hhbgf
    refine ⟨l, ?_, hlen, hmem⟩
    simp only [cluster_ensembles, Option.getD_some]
    rw [if_neg hle]
    simp [htn, hl]
  · refine ⟨nmf sqrtF rnd rndD bcs ncls, ?_, hnmf.1, hnmf.2⟩
    simp only [cluster_ensembles, Option.getD_some]
    rw [if_neg hle]
    simp [htn, nmf]

theorem trivPart_spec :
    ∀ k xadj adjncy ew, 0 < k →
      (trivPart k xadj adjncy ew).length = xadj.length - 1 ∧
      ∀ v ∈ trivPart k xadj adjncy ew, v < k := by
  intro k xadj adjncy ew hkpos
  refine ⟨by simp [trivPart], ?_⟩
  intro v hv
  simp only [trivPart, List.mem_replicate] at hv
  omega

/-- Witness for C1 at `[[0, 1]]` with the trivial partitioner and chooser. -/
theorem claim_C1_witness :
    (([[some 0, some 1]] : List (List Label)) ≠ [] ∧
      (∀ bc ∈ ([[some 0, some 1]] : List (List Label)), bc.length = 2) ∧
      0 < 2 ∧
      (∀ k xadj adjncy ew, 0 < k →
        (trivPart k xadj adjncy ew).length = xadj.length - 1 ∧
        ∀ v ∈ trivPart k xadj adjncy ew, v < k) ∧
      ∀ l : List Nat, l ≠ [] → trivChoice l ∈ l) ∧
    (∃ l, cspa trivPart [[some 0, some 1]] 2 = some l ∧ l.length = 2 ∧
      ∀ v ∈ l, v < 2) ∧
    (∃ l, mcla trivPart trivChoice [[some 0, some 1]] 2 = some l ∧
      l.length = 2 ∧ ∀ v ∈ l, v < 2) ∧
    (∃ l, hbgf trivPart [[some 0, some 1]] 2 = some l ∧ l.length = 2 ∧
      ∀ v ∈ l, v < 2) ∧
    ((nmf id (fun _ _ => 0) (fun _ => 0) [[some 0, some 1]] 2).length = 2 ∧
      ∀ v ∈ nmf id (fun _ _ => 0) (fun _ => 0) [[some 0, some 1]] 2, v < 2) ∧
    ∀ solver ∈ ["cspa", "mcla", "hbgf", "nmf"],
      ∃ l, cluster_ensembles trivPart trivChoice id (fun _ _ => 0)
          (fun _ => 0) [[some 0, some 1]] (some ((2 : Nat) : ℤ)) solver =
          Except.ok (some l) ∧
        l.length = 2 ∧ ∀ v ∈ l, v < 2 :=
  ⟨⟨by simp, by decide, by decide, trivPart_spec, trivChoice_mem⟩,
    claim_C1 trivPart trivChoice id (fun _ _ => 0) (fun _ => 0)
      [[some 0, some 1]] 2 (by simp) (by decide) (by decide)
      trivPart_spec trivChoice_mem⟩

/-- C8: `orthogonal_nmf_algorithm` performs exactly `maxiter` update rounds
with no convergence check or early stopping (one more iteration is exactly
one more application of the update step to the previous result, and zero
iterations return the untouched random initialization); `nmf` then assigns
each object the first (lowest) column index attaining the maximum of its
row of `Q·sqrt(S)`; and for every iteration count — `maxiter = 0`
included — the result is a valid label vector of length `N` with entries in
`[0, ncls)`; the source's `nmf` is the `maxiter = 500` instance. -/
theorem claim_C8 {N : Nat} (sqrtF : ℚ → ℚ) (rnd : Nat → Nat → ℚ)
    (rndD : Nat → ℚ) (bcs : List (List Label)) (ncls : Nat)
    (hne : bcs ≠ []) (hrect : ∀ bc ∈ bcs, bc.length = N) (hk : 0 < ncls) :
    (∀ (W : List (List ℚ)) (m : Nat),
      orthogonal_nmf_algorithm sqrtF rnd rndD W ncls (m + 1) =
        onmfStep sqrtF W (orthogonal_nmf_algorithm sqrtF rnd rndD W ncls m)) ∧
    (∀ W : List (List ℚ),
      orthogonal_nmf_algorithm sqrtF rnd rndD W ncls 0 =
        (initQ rnd W.length ncls, diagM ((List.range ncls).map rndD))) ∧
    nmf sqrtF rnd rndD bcs ncls = nmfWith sqrtF rnd rndD bcs ncls 500 ∧
    ∀ maxiter : Nat,
      nmfWith sqrtF rnd rndD bcs ncls maxiter =
        (matMul
          (orthogonal_nmf_algorithm sqrtF rnd rndD
            (create_connectivity_matrix bcs) ncls maxiter).1
          (elemMap sqrtF (orthogonal_nmf_algorithm sqrtF rnd rndD
            (create_connectivity_matrix bcs) ncls maxiter).2)).map
          argmaxFirst ∧
      (nmfWith sqrtF rnd rndD bcs ncls maxiter).length = N ∧
      (∀ v ∈ nmfWith sqrtF rnd rndD bcs ncls maxiter, v < ncls) ∧
      ∀ i, i < N → ∃ row,
        row = (matMul
          (orthogonal_nmf_algorithm sqrtF rnd rndD
            (create_connectivity_matrix bcs) ncls maxiter).1
          (elemMap sqrtF (orthogonal_nmf_algorithm sqrtF rnd rndD
            (create_connectivity_matrix bcs) ncls maxiter).2)).getD i [] ∧
        row.length = ncls ∧
        (nmfWith sqrtF rnd rndD bcs ncls maxiter).getD i 0 =
          argmaxFirst row ∧
        argmaxFirst row < ncls ∧
        (∀ j, j < ncls → row.getD j 0 ≤ row.getD (argmaxFirst row) 0) ∧
        ∀ j, j < argmaxFirst row →
          row.getD j 0 < row.getD (argmaxFirst row) 0 := by
  refine ⟨?_, ?_, rfl, ?_⟩
  · intro W m
    simp only [orthogonal_nmf_algorithm, List.range_succ, List.foldl_append,
      List.foldl_cons, List.foldl_nil]
  · intro W
    simp only [orthogonal_nmf_algorithm, List.range_zero, List.foldl_nil]
  · intro maxiter
    have hvalid := nmfWith_valid sqrtF rnd rndD bcs ncls maxiter hne hrect hk
    refine ⟨nmfWith_eq_map sqrtF rnd rndD bcs ncls maxiter, hvalid.1,
      hvalid.2, ?_⟩
    intro i hi
    have hN : 0 < N := by omega
    have hfin := nmf_final_rect sqrtF rnd rndD bcs ncls maxiter hne hrect hk hN
    set F := matMul
      (orthogonal_nmf_algorithm sqrtF rnd rndD
        (create_connectivity_matrix bcs) ncls maxiter).1
      (elemMap sqrtF (orthogonal_nmf_algorithm sqrtF rnd rndD
        (create_connectivity_matrix bcs) ncls maxiter).2) with hFdef
    have hrowlen : (F.getD i []).length = ncls :=
      hfin.2 _ (getD_mem_of_lt F [] (by rw [hfin.1]; omega))
    have hrne : F.getD i [] ≠ [] :=
      List.length_pos.mp (by rw [hrowlen]; omega)
    refine ⟨F.getD i [], rfl, hrowlen, ?_, ?_, ?_, ?_⟩
    · rw [nmfWith_eq_map, ← hFdef]
      exact getD_map_of_lt _ _ [] 0 (by rw [hfin.1]; omega)
    · have := argmaxFirst_lt _ hrne
      omega
    · intro j hj
      exact argmaxFirst_is_max _ hrne j (by omega)
    · exact argmaxFirst_is_first _ hrne

/-- Witness for C8 at `[[0, 1]]`. -/
theorem claim_C8_witness :
    (([[some 0, some 1]] : List (List Label)) ≠ [] ∧
      (∀ bc ∈ ([[some 0, some 1]] : List (List Label)), bc.length = 2) ∧
      0 < 2) ∧
    ((∀ (W : List (List ℚ)) (m : Nat),
      orthogonal_nmf_algorithm id (fun _ _ => 0) (fun _ => 0) W 2 (m + 1) =
        onmfStep id W
          (orthogonal_nmf_algorithm id (fun _ _ => 0) (fun _ => 0) W 2 m)) ∧
    (∀ W : List (List ℚ),
      orthogonal_nmf_algorithm id (fun _ _ => 0) (fun _ => 0) W 2 0 =
        (initQ (fun _ _ => 0) W.length 2,
          diagM ((List.range 2).map (fun _ => 0)))) ∧
    nmf id (fun _ _ => 0) (fun _ => 0) [[some 0, some 1]] 2 =
      nmfWith id (fun _ _ => 0) (fun _ => 0) [[some 0, some 1]] 2 500 ∧
    ∀ maxiter : Nat,
      nmfWith id (fun _ _ => 0) (fun _ => 0) [[some 0, some 1]] 2 maxiter =
        (matMul
          (orthogonal_nmf_algorithm id (fun _ _ => 0) (fun _ => 0)
            (create_connectivity_matrix [[some 0, some 1]]) 2 maxiter).1
          (elemMap id (orthogonal_nmf_algorithm id (fun _ _ => 0)
            (fun _ => 0)
            (create_connectivity_matrix [[some 0, some 1]]) 2 maxiter).2)).map
          argmaxFirst ∧
      (nmfWith id (fun _ _ => 0) (fun _ => 0) [[some 0, some 1]] 2
        maxiter).length = 2 ∧
      (∀ v ∈ nmfWith id (fun _ _ => 0) (fun _ => 0) [[some 0, some 1]] 2
        maxiter, v < 2) ∧
      ∀ i, i < 2 → ∃ row,
        row = (matMul
          (orthogonal_nmf_algorithm id (fun _ _ => 0) (fun _ => 0)
            (create_connectivity_matrix [[some 0, some 1]]) 2 maxiter).1
          (elemMap id (orthogonal_nmf_algorithm id (fun _ _ => 0)
            (fun _ => 0)
            (create_connectivity_matrix [[some 0, some 1]]) 2
            maxiter).2)).getD i [] ∧
        row.length = 2 ∧
        (nmfWith id (fun _ _ => 0) (fun _ => 0) [[some 0, some 1]] 2
          maxiter).getD i 0 = argmaxFirst row ∧
        argmaxFirst row < 2 ∧
        (∀ j, j < 2 → row.getD j 0 ≤ row.getD (argmaxFirst row) 0) ∧
        ∀ j, j < argmaxFirst row →
          row.getD j 0 < row.getD (argmaxFirst row) 0) :=
  ⟨⟨by simp, by decide, by decide⟩,
    claim_C8 id (fun _ _ => 0) (fun _ => 0) [[some 0, some 1]] 2
      (by simp) (by decide) (by decide)⟩

/-! ## Orchestrator facts -/

theorem foldl_maxf_init_le {α β : Type} [LinearOrder β] (f : α → β)
    (l : List α) (a : β) :
    a ≤ l.foldl (fun acc x => max acc (f x)) a := by
  induction l generalizing a with
  | nil => exact le_refl a
  | cons b l ih => exact le_trans (le_max_left a (f b)) (ih (max a (f b)))

theorem le_foldl_maxf_of_mem {α β : Type} [LinearOrder β] (f : α → β)
    (l : List α) (a : β) {x : α} (hx : x ∈ l) :
    f x ≤ l.foldl (fun acc y => max acc (f y)) a := by
  induction l generalizing a with
  | nil => simp at hx
  | cons b l ih =>
    rw [List.mem_cons] at hx
    rcases hx with rfl | hx
    · exact le_trans (le_max_right a (f x)) (foldl_maxf_init_le f l (max a (f x)))
    · exact ih (max a (f b)) hx

theorem foldl_maxf_attained {α β : Type} [LinearOrder β] (f : α → β)
    (l : List α) (a : β) :
    l.foldl (fun acc x => max acc (f x)) a = a ∨
      ∃ x ∈ l, l.foldl (fun acc y => max acc (f y)) a = f x := by
  induction l generalizing a with
  | nil => left; rfl
  | cons b l ih =>
    simp only [List.foldl_cons]
    rcases ih (max a (f b)) with h | ⟨x, hx, h⟩
    · rw [h]
      rcases max_cases a (f b) with ⟨h1, _⟩ | ⟨h1, _⟩
      · left; exact h1
      · right; exact ⟨b, by simp, h1⟩
    · right
      exact ⟨x, by simp [hx], h⟩

theorem defaultNcls_ge (bcs : List (List Label)) :
    ∀ bc ∈ bcs, ((uniqueLabels bc).length : ℤ) ≤ defaultNcls bcs := by
  intro bc hbc
  exact le_foldl_maxf_of_mem _ bcs (-1) hbc

theorem defaultNcls_attained (bcs : List (List Label)) (hne : bcs ≠ []) :
    ∃ bc ∈ bcs, defaultNcls bcs = ((uniqueLabels bc).length : ℤ) := by
  rcases foldl_maxf_attained
      (fun bc : List Label => ((uniqueLabels bc).length : ℤ)) bcs (-1) with
    h | h
  · exfalso
    obtain ⟨b, rest, rfl⟩ := List.exists_cons_of_ne_nil hne
    have hle := le_foldl_maxf_of_mem
      (fun bc : List Label => ((uniqueLabels bc).length : ℤ)) (b :: rest) (-1)
      (by simp : b ∈ b :: rest)
    rw [h] at hle
    have hle2 : ((uniqueLabels b).length : ℤ) ≤ -1 := hle
    have hge : (0 : ℤ) ≤ ((uniqueLabels b).length : ℤ) := by positivity
    omega
  · exact h

/-- C9: with an omitted class count, `cluster_ensembles` computes it as the
maximum over runs of the count of distinct non-missing labels; it raises an
invalid-argument error exactly when the (possibly defaulted) class count is
not positive (with a message naming the bad value) or when the solver name
is not one of cspa, mcla, hbgf, nmf (with a message naming the accepted
set); for valid arguments it returns the selected solver's output
unchanged. -/
theorem claim_C9 (part : Partitioner) (choice : Chooser) (sqrtF : ℚ → ℚ)
    (rnd : Nat → Nat → ℚ) (rndD : Nat → ℚ) (bcs : List (List Label))
    (nclsOpt : Option ℤ) (solver : String) :
    (∀ bc ∈ bcs, ((uniqueLabels bc).length : ℤ) ≤ defaultNcls bcs) ∧
    (bcs ≠ [] → ∃ bc ∈ bcs, defaultNcls bcs = ((uniqueLabels bc).length : ℤ)) ∧
    (nclsOpt.getD (defaultNcls bcs) ≤ 0 →
      cluster_ensembles part choice sqrtF rnd rndD bcs nclsOpt solver =
        Except.error
          ("Number of class must be a positive integer; got (nclass=" ++
            toString (nclsOpt.getD (defaultNcls bcs)) ++ ")")) ∧
    (0 < nclsOpt.getD (defaultNcls bcs) →
      solver ∉ ["cspa", "mcla", "hbgf", "nmf"] →
      cluster_ensembles part choice sqrtF rnd rndD bcs nclsOpt solver =
        Except.error
          ("Invalid solver parameter: got " ++ solver ++
            " instead of one of (cspa, mcla, hbgf, nmf)")) ∧
    ((∃ e, cluster_ensembles part choice sqrtF rnd rndD bcs nclsOpt solver =
        Except.error e) ↔
      (nclsOpt.getD (defaultNcls bcs) ≤ 0 ∨
        solver ∉ ["cspa", "mcla", "hbgf", "nmf"])) ∧
    (0 < nclsOpt.getD (defaultNcls bcs) → solver = "cspa" →
      cluster_ensembles part choice sqrtF rnd rndD bcs nclsOpt solver =
        Except.ok (cspa part bcs (nclsOpt.getD (defaultNcls bcs)).toNat)) ∧
    (0 < nclsOpt.getD (defaultNcls bcs) → solver = "mcla" →
      cluster_ensembles part choice sqrtF rnd rndD bcs nclsOpt solver =
        Except.ok (mcla part choice bcs
          (nclsOpt.getD (defaultNcls bcs)).toNat)) ∧
    (0 < nclsOpt.getD (defaultNcls bcs) → solver = "hbgf" →
      cluster_ensembles part choice sqrtF rnd rndD bcs nclsOpt solver =
        Except.ok (hbgf part bcs (nclsOpt.getD (defaultNcls bcs)).toNat)) ∧
    (0 < nclsOpt.getD (defaultNcls bcs) → solver = "nmf" →
      cluster_ensembles part choice sqrtF rnd rndD bcs nclsOpt solver =
        Except.ok (some (nmf sqrtF rnd rndD bcs
          (nclsOpt.getD (defaultNcls bcs)).toNat))) := by
  have herr1 : nclsOpt.getD (defaultNcls bcs) ≤ 0 →
      cluster_ensembles part choice sqrtF rnd rndD bcs nclsOpt solver =
        Except.error
          ("Number of class must be a positive integer; got (nclass=" ++
            toString (nclsOpt.getD (defaultNcls bcs)) ++ ")") := by
    intro hn
    simp only [cluster_ensembles]
    rw [if_pos hn]
  have herr2 : 0 < nclsOpt.getD (defaultNcls bcs) →
      solver ∉ ["cspa", "mcla", "hbgf", "nmf"] →
      cluster_ensembles part choice sqrtF rnd rndD bcs nclsOpt solver =
        Except.error
          ("Invalid solver parameter: got " ++ solver ++
            " instead of one of (cspa, mcla, hbgf, nmf)") := by
    intro hn hns
    simp only [List.mem_cons, List.not_mem_nil, or_false, not_or] at hns
    simp only [cluster_ensembles]
    rw [if_neg (not_le.mpr hn), if_neg hns.1, if_neg hns.2.1,
      if_neg hns.2.2.1, if_neg hns.2.2.2]
  have hok : ∀ s ∈ ["cspa", "mcla", "hbgf", "nmf"],
      0 < nclsOpt.getD (defaultNcls bcs) →
      ∃ l, cluster_ensembles part choice sqrtF rnd rndD bcs nclsOpt s =
        Except.ok l := by
    intro s hs hn
    simp only [List.mem_cons, List.not_mem_nil, or_false] at hs
    rcases hs with rfl | rfl | rfl | rfl <;>
      (simp only [cluster_ensembles]; rw [if_neg (not_le.mpr hn)]; simp)
  refine ⟨defaultNcls_ge bcs, defaultNcls_attained bcs, herr1, herr2,
    ⟨?_, ?_⟩, ?_, ?_, ?_, ?_⟩
  · rintro ⟨e, he⟩
    by_contra hcon
    push_neg at hcon
    obtain ⟨hn, hs⟩ := hcon
    obtain ⟨l, hl⟩ := hok solver hs (by omega)
    rw [he] at hl
    exact Except.noConfusion hl
  · rintro (hn | hns)
    · exact ⟨_, herr1 hn⟩
    · by_cases hn : nclsOpt.getD (defaultNcls bcs) ≤ 0
      · exact ⟨_, herr1 hn⟩
      · exact ⟨_, herr2 (by omega) hns⟩
  · intro hn hs
    subst hs
    simp only [cluster_ensembles]
    rw [if_neg (not_le.mpr hn)]
    simp
  · intro hn hs
    subst hs
    simp only [cluster_ensembles]
    rw [if_neg (not_le.mpr hn)]
    simp
  · intro hn hs
    subst hs
    simp only [cluster_ensembles]
    rw [if_neg (not_le.mpr hn)]
    simp
  · intro hn hs
    subst hs
    simp only [cluster_ensembles]
    rw [if_neg (not_le.mpr hn)]
    simp

/-- Witness for C9 at `[[0, 1]]`, omitted class count and an invalid
solver name. -/
theorem claim_C9_witness :
    (∀ bc ∈ ([[some 0, some 1]] : List (List Label)),
      ((uniqueLabels bc).length : ℤ) ≤ defaultNcls [[some 0, some 1]]) ∧
    (([[some 0, some 1]] : List (List Label)) ≠ [] →
      ∃ bc ∈ ([[some 0, some 1]] : List (List Label)),
        defaultNcls [[some 0, some 1]] = ((uniqueLabels bc).length : ℤ)) ∧
    ((none : Option ℤ).getD (defaultNcls [[some 0, some 1]]) ≤ 0 →
      cluster_ensembles trivPart trivChoice id (fun _ _ => 0) (fun _ => 0)
          [[some 0, some 1]] none "bogus" =
        Except.error
          ("Number of class must be a positive integer; got (nclass=" ++
            toString ((none : Option ℤ).getD (defaultNcls [[some 0, some 1]])) ++
            ")")) ∧
    (0 < (none : Option ℤ).getD (defaultNcls [[some 0, some 1]]) →
      "bogus" ∉ ["cspa", "mcla", "hbgf", "nmf"] →
      cluster_ensembles trivPart trivChoice id (fun _ _ => 0) (fun _ => 0)
          [[some 0, some 1]] none "bogus" =
        Except.error
          ("Invalid solver parameter: got " ++ "bogus" ++
            " instead of one of (cspa, mcla, hbgf, nmf)")) ∧
    ((∃ e, cluster_ensembles trivPart trivChoice id (fun _ _ => 0)
        (fun _ => 0) [[some 0, some 1]] none "bogus" = Except.error e) ↔
      ((none : Option ℤ).getD (defaultNcls [[some 0, some 1]]) ≤ 0 ∨
        "bogus" ∉ ["cspa", "mcla", "hbgf", "nmf"])) ∧
    (0 < (none : Option ℤ).getD (defaultNcls [[some 0, some 1]]) →
      "bogus" = "cspa" →
      cluster_ensembles trivPart trivChoice id (fun _ _ => 0) (fun _ => 0)
          [[some 0, some 1]] none "bogus" =
        Except.ok (cspa trivPart [[some 0, some 1]]
          ((none : Option ℤ).getD (defaultNcls [[some 0, some 1]])).toNat)) ∧
    (0 < (none : Option ℤ).getD (defaultNcls [[some 0, some 1]]) →
      "bogus" = "mcla" →
      cluster_ensembles trivPart trivChoice id (fun _ _ => 0) (fun _ => 0)
          [[some 0, some 1]] none "bogus" =
        Except.ok (mcla trivPart trivChoice [[some 0, some 1]]
          ((none : Option ℤ).getD (defaultNcls [[some 0, some 1]])).toNat)) ∧
    (0 < (none : Option ℤ).getD (defaultNcls [[some 0, some 1]]) →
      "bogus" = "hbgf" →
      cluster_ensembles trivPart trivChoice id (fun _ _ => 0) (fun _ => 0)
          [[some 0, some 1]] none "bogus" =
        Except.ok (hbgf trivPart [[some 0, some 1]]
          ((none : Option ℤ).getD (defaultNcls [[some 0, some 1]])).toNat)) ∧
    (0 < (none : Option ℤ).getD (defaultNcls [[some 0, some 1]]) →
      "bogus" = "nmf" →
      cluster_ensembles trivPart trivChoice id (fun _ _ => 0) (fun _ => 0)
          [[some 0, some 1]] none "bogus" =
        Except.ok (some (nmf id (fun _ _ => 0) (fun _ => 0)
          [[some 0, some 1]]
          ((none : Option ℤ).getD (defaultNcls [[some 0, some 1]])).toNat))) :=
  claim_C9 trivPart trivChoice id (fun _ _ => 0) (fun _ => 0)
    [[some 0, some 1]] none "bogus"

end ClusterEnsembles
